import Mathlib

/-!
# Broadcast queue (`broadcast-queue.hpp`)

A shallow embedding of `recap::app::broadcast_queue::BroadcastQueue` and of
`BroadcastQueueSubscriber`, followed by theorems about them.

Modelling conventions.

* `std::queue<T, std::deque<T>>` is a `List T` whose head is the oldest element:
  `push` appends at the end, `pop` drops the head, `front` is the head and
  `back` is the last element.
* `std::list<std::unique_ptr<queue_type>>` is a list of `Slot`s.  A slot carries
  the identity of its list node (`node`) next to the queue it owns.  A
  `std::list` iterator (`handle_t`) is the identity of a node; it stays valid
  while other nodes are inserted or erased.
* Dereferencing an iterator is a lookup of its node.  What is undefined
  behaviour in C++ (dereferencing an iterator whose node is gone, `front`,
  `back` or `pop` on an empty queue) is `none`.
* A subscriber holds a reference to its hub (`controller`); here the current
  hub state is passed to every subscriber operation, and operations that
  change the hub return the new hub state.
-/

namespace recap.app.broadcast_queue

/-- The type `std::queue<T, Container>`: the oldest element is the head. -/
abbrev queue_type (T : Type) := List T

/-- The type `observer_list_t::iterator`: the identity of a list node. -/
abbrev handle_t := Nat

/-- One node of `observer_list_t`: the node identity and the queue owned by the
`unique_ptr` stored in the node. -/
structure Slot (T : Type) where
  node : handle_t
  queue : queue_type T
deriving DecidableEq

/-- The type `std::list<std::unique_ptr<queue_type>>`, in list order. -/
abbrev observer_list_t (T : Type) := List (Slot T)

/-- The class `BroadcastQueue<T>`; its only data member is `observers`. -/
structure BroadcastQueue (T : Type) where
  observers : observer_list_t T
deriving DecidableEq

/-- The class `BroadcastQueueSubscriber<T>`: the iterator `handle`.  The member
`controller` is the hub state passed to each operation. -/
structure BroadcastQueueSubscriber where
  handle : handle_t
deriving DecidableEq

/-- The identity of a newly allocated list node: different from the identity of
every node that is in the list at the time of the allocation. -/
def freshNode {T : Type} : observer_list_t T → handle_t
  | [] => 0
  | s :: rest => max (s.node + 1) (freshNode rest)

/-- The expression `*handle`: the queue owned by the node the iterator points
to, `none` when the list has no such node. -/
def deref {T : Type} : observer_list_t T → handle_t → Option (queue_type T)
  | [], _ => none
  | s :: rest, h => if s.node = h then some s.queue else deref rest h

/-- A write through `*handle`: the queue of the node the iterator points to
becomes `q`; all other nodes are left alone. -/
def assign {T : Type} : observer_list_t T → handle_t → queue_type T → observer_list_t T
  | [], _, _ => []
  | s :: rest, h, q =>
    if s.node = h then { s with queue := q } :: rest else s :: assign rest h q

/-- The call `observers.erase(handle)`: unlinks the node the iterator points
to. -/
def eraseNode {T : Type} : observer_list_t T → handle_t → observer_list_t T
  | [], _ => []
  | s :: rest, h => if s.node = h then rest else s :: eraseNode rest h

namespace BroadcastQueue

/-- A default-constructed `BroadcastQueue`: no observers. -/
def new {T : Type} : BroadcastQueue T := ⟨[]⟩

/-- The member `subscribe()`: emplaces a node owning an empty queue at
`observers.end()` and returns a subscriber holding the iterator to it. -/
def subscribe {T : Type} (self : BroadcastQueue T) :
    BroadcastQueueSubscriber × BroadcastQueue T :=
  let handle := freshNode self.observers
  (⟨handle⟩, ⟨self.observers ++ [⟨handle, []⟩]⟩)

/-- The member `clear()`: every queue is swapped with an empty queue. -/
def clear {T : Type} (self : BroadcastQueue T) : BroadcastQueue T :=
  ⟨self.observers.map (fun s => { s with queue := [] })⟩

/-- The member `push(const value_type&)`: `queue->push(value)` on every node. -/
def push {T : Type} (self : BroadcastQueue T) (value : T) : BroadcastQueue T :=
  ⟨self.observers.map (fun s => { s with queue := s.queue ++ [value] })⟩

/-- The member `num_subscribers()`: `observers.size()`. -/
def num_subscribers {T : Type} (self : BroadcastQueue T) : Nat :=
  self.observers.length

/-- The member `unsubscribe(handle)`: `observers.erase(handle)`; erasing through
an iterator that points to no node of the list is undefined. -/
def unsubscribe {T : Type} (self : BroadcastQueue T) (handle : handle_t) :
    Option (BroadcastQueue T) :=
  if (deref self.observers handle).isSome then
    some ⟨eraseNode self.observers handle⟩
  else
    none

end BroadcastQueue

namespace BroadcastQueueSubscriber

/-- The destructor: `controller.unsubscribe(handle)`. -/
def destroy {T : Type} (self : BroadcastQueueSubscriber) (controller : BroadcastQueue T) :
    Option (BroadcastQueue T) :=
  controller.unsubscribe self.handle

/-- The member `empty()`: `(*handle)->empty()`. -/
def empty {T : Type} (self : BroadcastQueueSubscriber) (controller : BroadcastQueue T) :
    Option Bool :=
  (deref controller.observers self.handle).map List.isEmpty

/-- The member `back()`: `(*handle)->back()`, undefined on an empty queue. -/
def back {T : Type} (self : BroadcastQueueSubscriber) (controller : BroadcastQueue T) :
    Option T :=
  (deref controller.observers self.handle).bind List.getLast?

/-- The member `front()`: `(*handle)->front()`, undefined on an empty queue. -/
def front {T : Type} (self : BroadcastQueueSubscriber) (controller : BroadcastQueue T) :
    Option T :=
  (deref controller.observers self.handle).bind List.head?

/-- The member `pop()`: `(*handle)->pop()`, undefined on an empty queue. -/
def pop {T : Type} (self : BroadcastQueueSubscriber) (controller : BroadcastQueue T) :
    Option (BroadcastQueue T) :=
  match deref controller.observers self.handle with
  | some (_ :: rest) => some ⟨assign controller.observers self.handle rest⟩
  | _ => none

/-- The member `size()`: `(*handle)->size()`. -/
def size {T : Type} (self : BroadcastQueueSubscriber) (controller : BroadcastQueue T) :
    Option Nat :=
  (deref controller.observers self.handle).map List.length

/-- The buffer seen through the subscriber: the whole queue `**handle`. -/
def buffer {T : Type} (self : BroadcastQueueSubscriber) (controller : BroadcastQueue T) :
    Option (queue_type T) :=
  deref controller.observers self.handle

end BroadcastQueueSubscriber

/-- A program state: the hub together with the subscriber objects that are
alive (constructed by `subscribe` and not yet destroyed). -/
structure World (T : Type) where
  queue : BroadcastQueue T
  live : List BroadcastQueueSubscriber
deriving DecidableEq

/-- The calls a client can make on a hub and on its live subscribers. -/
inductive Op (T : Type) where
  | subscribe : Op T
  | push : T → Op T
  | clear : Op T
  | pop : BroadcastQueueSubscriber → Op T
  | destroy : BroadcastQueueSubscriber → Op T
deriving DecidableEq

namespace World

/-- The state after `BroadcastQueue<T> queue;`. -/
def init {T : Type} : World T := ⟨BroadcastQueue.new, []⟩

/-- One client call.  Member functions of a subscriber can only be called on a
subscriber object that is alive; a call with undefined behaviour has no
successor state. -/
def step {T : Type} (w : World T) : Op T → Option (World T)
  | .subscribe => some ⟨w.queue.subscribe.2, w.live ++ [w.queue.subscribe.1]⟩
  | .push v => some ⟨w.queue.push v, w.live⟩
  | .clear => some ⟨w.queue.clear, w.live⟩
  | .pop sub =>
    if sub ∈ w.live then (sub.pop w.queue).map (fun q => ⟨q, w.live⟩) else none
  | .destroy sub =>
    if sub ∈ w.live then (sub.destroy w.queue).map (fun q => ⟨q, w.live.erase sub⟩) else none

/-- A sequence of client calls, left to right. -/
def run {T : Type} (w : World T) : List (Op T) → Option (World T)
  | [] => some w
  | op :: ops => (w.step op).bind (fun w1 => run w1 ops)

/-- The states a client can reach from a newly constructed hub. -/
def Reachable {T : Type} (w : World T) : Prop :=
  ∃ ops : List (Op T), run init ops = some w

end World

/-- The values pushed by a sequence of calls, in push order. -/
def pushed {T : Type} : List (Op T) → List T
  | [] => []
  | .push v :: ops => v :: pushed ops
  | _ :: ops => pushed ops

/-- Reading `front()` and then calling `pop()`, `n` times in a row: the values
read, in the order read, and the final hub state. -/
def drain {T : Type} (sub : BroadcastQueueSubscriber) :
    Nat → BroadcastQueue T → Option (List T × BroadcastQueue T)
  | 0, q => some ([], q)
  | n + 1, q =>
    (sub.front q).bind fun v =>
      (sub.pop q).bind fun q1 =>
        (drain sub n q1).map fun r => (v :: r.1, r.2)

/-- The subscribers bound to the nodes of the list, in list order. -/
def handles {T : Type} (obs : observer_list_t T) : List BroadcastQueueSubscriber :=
  obs.map (fun s => ⟨s.node⟩)

/-- The slots of the hub are exactly the slots of the live subscribers. -/
def World.Inv {T : Type} (w : World T) : Prop :=
  handles w.queue.observers = w.live

/-- An assignment through the reference returned by the non-const `front()`,
as in `sub.front() = value`; undefined on an empty queue. -/
def BroadcastQueueSubscriber.write_front {T : Type} (self : BroadcastQueueSubscriber)
    (controller : BroadcastQueue T) (value : T) : Option (BroadcastQueue T) :=
  match deref controller.observers self.handle with
  | some (_ :: rest) => some ⟨assign controller.observers self.handle (value :: rest)⟩
  | _ => none

/-- An assignment through the reference returned by the non-const `back()`,
as in `sub.back() = value`; undefined on an empty queue. -/
def BroadcastQueueSubscriber.write_back {T : Type} (self : BroadcastQueueSubscriber)
    (controller : BroadcastQueue T) (value : T) : Option (BroadcastQueue T) :=
  match deref controller.observers self.handle with
  | some (x :: rest) =>
    some ⟨assign controller.observers self.handle ((x :: rest).dropLast ++ [value])⟩
  | _ => none

/-- The call `queue->push(value)` in the body of `push(value_type&&)`: `value`
is a named variable there, so `std::queue::push(const value_type&)` is selected;
it appends a copy and leaves the variable as it was.  The result is the queue
and the variable after the call. -/
def queue_push_lvalue {T : Type} (queue : queue_type T) (value : T) : queue_type T × T :=
  (queue ++ [value], value)

/-- The loop `for (const auto& queue : observers) queue->push(value);` of
`push(value_type&&)`, with the variable `value` carried from one iteration to
the next. -/
def push_rvalue_loop {T : Type} : observer_list_t T → T → observer_list_t T
  | [], _ => []
  | s :: rest, value =>
    { s with queue := (queue_push_lvalue s.queue value).1 } ::
      push_rvalue_loop rest (queue_push_lvalue s.queue value).2

/-- The member `push(value_type&&)`. -/
def BroadcastQueue.push_rvalue {T : Type} (self : BroadcastQueue T) (value : T) :
    BroadcastQueue T :=
  ⟨push_rvalue_loop self.observers value⟩

/-- Calling `pop()` on a subscriber `n` times in a row. -/
def pop_times {T : Type} (sub : BroadcastQueueSubscriber) :
    Nat → BroadcastQueue T → Option (BroadcastQueue T)
  | 0, q => some q
  | n + 1, q => (sub.pop q).bind (pop_times sub n)

/-- Each subscriber of the list, in turn, reads its `size()` and calls `pop()`
that many times. -/
def pop_all {T : Type} : List BroadcastQueueSubscriber → BroadcastQueue T →
    Option (BroadcastQueue T)
  | [], q => some q
  | sub :: subs, q =>
    (sub.size q).bind fun n => (pop_times sub n q).bind (pop_all subs)

/-- The hub of `test_queuing` at the end of the inner scope, `sub3` still
alive. -/
def test_queuing_queue : BroadcastQueue Int :=
  (((((BroadcastQueue.new.push 0).subscribe.2.push 1).push 2).subscribe.2.push 3).subscribe.2.push 4)

/-! ## The scenarios of `test-broadcast-queue.cpp` -/

/-- The subscriber `sub1` of the tests: the first node allocated in a hub. -/
def sub1 : BroadcastQueueSubscriber := ⟨0⟩

/-- The subscriber `sub2` of the tests. -/
def sub2 : BroadcastQueueSubscriber := ⟨1⟩

/-- The subscriber `sub3` of the tests. -/
def sub3 : BroadcastQueueSubscriber := ⟨2⟩

/-- The calls of `test_queuing` that follow the creation of `sub1`, up to the end
of the inner scope. -/
def test_queuing_ops : List (Op Int) :=
  [.push 1, .push 2, .subscribe, .push 3, .subscribe, .push 4, .destroy sub3]

/-- The hub of `test_popping` before the first `pop`. -/
def test_popping_queue : BroadcastQueue Int :=
  ((((BroadcastQueue.new.subscribe.2.subscribe.2.push 1).push 2).push 3).push 4)

/-- The hub of `test_clear` before `queue.clear()`. -/
def test_clear_queue : BroadcastQueue Int :=
  ((((((BroadcastQueue.new.subscribe.2.push 1).push 2).push 3).subscribe.2.push 4).push 5).push 6)

/-- The calls of `test_num_subscribers` up to the creation of `sub3`. -/
def test_num_subscribers_ops : List (Op Int) :=
  [.subscribe, .destroy sub1, .subscribe, .subscribe, .subscribe]

/-- The calls of `test_clear` before `queue.clear()`. -/
def test_clear_ops : List (Op Int) :=
  [.subscribe, .push 1, .push 2, .push 3, .subscribe, .push 4, .push 5, .push 6]

end recap.app.broadcast_queue

/-!
# Observable (`observable.hpp`)

A shallow embedding of the class template `Observable<Ts...>` and of its nested
class `Observer`.

Modelling conventions.

* `A` is the tuple of the parameter types `Ts...`, which are passed by value.
  A callback (`std::function<void(Ts...)>`) acts on the variables it captured
  by reference, the environment `σ`, and on its own copy of the arguments; it
  returns the final value of that copy and the new environment.
* `Function`, `notify_loop` and `World` describe callbacks that return normally
  and make no call on the observable.  Callbacks that subscribe, destroy an
  `Observer`, throw, or change a reference argument are embedded in the section
  `Reentrant`; on callbacks of the first kind the two agree
  (`Reentrant.notify_lift`).
* `std::list<Function>` is a list of entries; an entry carries the identity of
  its list node next to the function stored in it, and an iterator is the
  identity of a node.
* The list is owned by the `shared_ptr` member of the one `Observable` object of
  a program.  A program state holds `some` observable while that object exists
  and `none` after it has been destroyed; this is also what `list_ptr.lock()`
  of an `Observer` yields.
* The invocations made by `notify` are recorded, in order, as pairs of the node
  whose function was called and the arguments passed to it.
-/

namespace observable

/-- The type `std::function<void(Ts...)>`, for a callback that returns normally,
takes its arguments by value and makes no call on the observable. -/
abbrev Function (σ A : Type) := A → σ → A × σ

/-- The type `ObserverList::iterator`: the identity of a list node. -/
abbrev Handle := Nat

/-- One node of `ObserverList`. -/
structure Entry (σ A : Type) where
  node : Handle
  function : Function σ A

/-- The type `std::list<Function>`, in list order. -/
abbrev ObserverList (σ A : Type) := List (Entry σ A)

/-- The class `Observable<Ts...>`: the list `*m_observers`. -/
structure Observable (σ A : Type) where
  m_observers : ObserverList σ A

/-- The class `Observable<Ts...>::Observer`: the iterator `handle`; what
`list_ptr` resolves to is part of the program state. -/
structure Observer where
  handle : Handle
deriving DecidableEq

/-- The identity of a newly allocated list node: different from the identity of
every node that is in the list at the time of the allocation. -/
def freshNode {σ A : Type} : ObserverList σ A → Handle
  | [] => 0
  | e :: rest => max (e.node + 1) (freshNode rest)

/-- Whether the iterator points to a node of the list. -/
def hasNode {σ A : Type} : ObserverList σ A → Handle → Bool
  | [], _ => false
  | e :: rest, h => if e.node = h then true else hasNode rest h

/-- The call `list->erase(handle)`: unlinks the node the iterator points to. -/
def eraseNode {σ A : Type} : ObserverList σ A → Handle → ObserverList σ A
  | [], _ => []
  | e :: rest, h => if e.node = h then rest else e :: eraseNode rest h

/-- The call `observer(args...)` in `notify`: `args` names the parameter pack, so
each argument is passed as an lvalue and the parameter of the callee is
copy-constructed.  The callee works on its copy, which dies on return.  The
result is the new environment and the variable `args` after the call. -/
def invoke {σ A : Type} (function : Function σ A) (args : A) (env : σ) : σ × A :=
  ((function args env).2, args)

/-- The loop `for (const auto& observer : *m_observers) observer(args...);`, with
the variable `args` carried from one iteration to the next; the last
component collects the invocations made. -/
def notify_loop {σ A : Type} :
    ObserverList σ A → A → σ → List (Handle × A) → σ × List (Handle × A)
  | [], _, env, calls => (env, calls)
  | e :: rest, args, env, calls =>
    notify_loop rest (invoke e.function args env).2 (invoke e.function args env).1
      (calls ++ [(e.node, args)])

namespace Observable

/-- The constructor `Observable()`: a new, empty list. -/
def new {σ A : Type} : Observable σ A := ⟨[]⟩

/-- The member `num_observers()`: `m_observers->size()`. -/
def num_observers {σ A : Type} (self : Observable σ A) : Nat :=
  self.m_observers.length

/-- The member `notify(args...)`: the new environment and the invocations made. -/
def notify {σ A : Type} (self : Observable σ A) (args : A) (env : σ) :
    σ × List (Handle × A) :=
  notify_loop self.m_observers args env []

/-- The member `subscribe(function)`: `emplace_back` of the function, then an
`Observer` holding the iterator to the last node. -/
def subscribe {σ A : Type} (self : Observable σ A) (function : Function σ A) :
    Observer × Observable σ A :=
  let handle := freshNode self.m_observers
  (⟨handle⟩, ⟨self.m_observers ++ [⟨handle, function⟩]⟩)

end Observable

/-- The destructor `~Observer()`, given what `list_ptr.lock()` yields: nothing
is done when the list is gone, otherwise `list->erase(handle)`, which is
undefined when the iterator points to no node of the list. -/
def Observer.destroy {σ A : Type} (self : Observer) :
    Option (Observable σ A) → Option (Option (Observable σ A))
  | none => some none
  | some list =>
    if hasNode list.m_observers self.handle then
      some (some ⟨eraseNode list.m_observers self.handle⟩)
    else
      none

/-- The observers bound to the nodes of the list, in list order. -/
def handles {σ A : Type} (l : ObserverList σ A) : List Observer :=
  l.map (fun e => ⟨e.node⟩)

/-- A program state: the observable while it exists, the `Observer` objects that
are alive, the variables captured by the callbacks, and the invocations made
so far. -/
structure World (σ A : Type) where
  observable : Option (Observable σ A)
  live : List Observer
  env : σ
  calls : List (Handle × A)

/-- The calls a client can make, and the destruction of the observable. -/
inductive Op (σ A : Type) where
  | subscribe : Function σ A → Op σ A
  | notify : A → Op σ A
  | destroy_observer : Observer → Op σ A
  | destroy_observable : Op σ A

namespace World

/-- The state after the construction of the observable. -/
def init {σ A : Type} (env : σ) : World σ A := ⟨some Observable.new, [], env, []⟩

/-- One client call.  Members of the observable can be called while it exists;
an `Observer` can be destroyed while it is alive. -/
def step {σ A : Type} (w : World σ A) : Op σ A → Option (World σ A)
  | .subscribe f =>
    w.observable.map fun o =>
      ⟨some (o.subscribe f).2, w.live ++ [(o.subscribe f).1], w.env, w.calls⟩
  | .notify args =>
    w.observable.map fun o =>
      ⟨some o, w.live, (o.notify args w.env).1, w.calls ++ (o.notify args w.env).2⟩
  | .destroy_observer ob =>
    if ob ∈ w.live then
      (ob.destroy w.observable).map fun o1 => ⟨o1, w.live.erase ob, w.env, w.calls⟩
    else
      none
  | .destroy_observable =>
    w.observable.map fun _ => ⟨none, w.live, w.env, w.calls⟩

/-- A sequence of client calls, left to right. -/
def run {σ A : Type} (w : World σ A) : List (Op σ A) → Option (World σ A)
  | [] => some w
  | op :: ops => (w.step op).bind (fun w1 => run w1 ops)

/-- The states a client can reach from a newly constructed observable. -/
def Reachable {σ A : Type} (w : World σ A) : Prop :=
  ∃ (env : σ) (ops : List (Op σ A)), run (init env) ops = some w

/-- While the observable exists, the nodes of its list are exactly the nodes of
the live observers, and they are distinct. -/
def Inv {σ A : Type} (w : World σ A) : Prop :=
  ∀ o, w.observable = some o → handles o.m_observers = w.live ∧ w.live.Nodup

end World

/-! ## The scenarios of `test-observable.cpp` -/

/-- The class `Callback` of the tests. -/
structure Callback where
  m_total : Int
  m_called : Nat
deriving DecidableEq

/-- The member `Callback::operator()(int i)`. -/
def Callback.call (self : Callback) (i : Int) : Callback :=
  ⟨self.m_total + i, self.m_called + 1⟩

/-- The lambda `[](auto) {}`. -/
def ignore_arg : Function Unit Int := fun i env => (i, env)

/-- The lambda `[&c1](int i) { c1(i); }`, the environment being `c1` and `c2`. -/
def call_c1 : Function (Callback × Callback) Int := fun i env => (i, (env.1.call i, env.2))

/-- The observer `sub1` of the tests: the first node allocated in a list. -/
def sub1 : Observer := ⟨0⟩

/-- The observer `sub2` of the tests. -/
def sub2 : Observer := ⟨1⟩

/-- The calls of `TestUnsubscribeDecreasesObserverCount` up to the creation of
`sub2`. -/
def test_unsubscribe_ops : List (Op Unit Int) :=
  [.subscribe ignore_arg, .subscribe ignore_arg]

/-- The calls of `TestObserverOutlivesObservable`, the destruction of `sub` at the
end of the scope included. -/
def test_outlives_ops : List (Op (Callback × Callback) Int) :=
  [.subscribe call_c1, .notify 10, .destroy_observable, .destroy_observer sub1]

/-- A third observer, created while `sub1` and `sub2` are alive. -/
def sub3 : Observer := ⟨2⟩

namespace Reentrant

mutual

/-- What a running callback does to the observable it was called from: a call
of `subscribe`, the returned `Observer` being kept alive, or the destruction of
an `Observer`.  A callback that calls `notify` itself or destroys the
observable is not described. -/
inductive Command (σ A : Type) where
  | subscribe : (A → σ → Outcome σ A) → Command σ A
  | destroy : Observer → Command σ A

/-- The effect of one call of a stored function: the environment and the
caller's argument after the call, the calls it made on the observable, in
order, and whether it returned normally (`false`: it threw). -/
inductive Outcome (σ A : Type) where
  | mk (env : σ) (args : A) (commands : List (Command σ A)) (returns : Bool) : Outcome σ A

end

/-- The environment after the call. -/
def Outcome.env {σ A : Type} : Outcome σ A → σ
  | .mk e _ _ _ => e

/-- The caller's argument after the call. -/
def Outcome.args {σ A : Type} : Outcome σ A → A
  | .mk _ a _ _ => a

/-- The calls made on the observable during the call. -/
def Outcome.commands {σ A : Type} : Outcome σ A → List (Command σ A)
  | .mk _ _ c _ => c

/-- Whether the call returned normally. -/
def Outcome.returns {σ A : Type} : Outcome σ A → Bool
  | .mk _ _ _ r => r

/-- The type `std::function<void(Ts...)>`. -/
abbrev Function (σ A : Type) := A → σ → Outcome σ A

/-- A callback that returns normally, leaves the argument as it was and makes no
call on the observable. -/
def Function.quiet {σ A : Type} (f : Function σ A) : Prop :=
  ∀ (a : A) (env : σ), (f a env).args = a ∧ (f a env).commands = [] ∧ (f a env).returns = true

/-- One node of `ObserverList`. -/
structure Entry (σ A : Type) where
  node : Handle
  function : Function σ A

/-- The type `std::list<Function>`, in list order. -/
abbrev ObserverList (σ A : Type) := List (Entry σ A)

/-- The class `Observable<Ts...>`: the list `*m_observers`. -/
structure Observable (σ A : Type) where
  m_observers : ObserverList σ A

/-- The identity of a newly allocated list node: different from the identity of
every node that is in the list at the time of the allocation. -/
def freshNode {σ A : Type} : ObserverList σ A → Handle
  | [] => 0
  | e :: rest => max (e.node + 1) (freshNode rest)

/-- Whether the iterator points to a node of the list. -/
def hasNode {σ A : Type} : ObserverList σ A → Handle → Bool
  | [], _ => false
  | e :: rest, h => if e.node = h then true else hasNode rest h

/-- The call `list->erase(handle)`: unlinks the node the iterator points to. -/
def eraseNode {σ A : Type} : ObserverList σ A → Handle → ObserverList σ A
  | [], _ => []
  | e :: rest, h => if e.node = h then rest else e :: eraseNode rest h

/-- The nodes from the one the iterator points to up to the end of the list;
`none` when the iterator points to no node of the list. -/
def from_node {σ A : Type} : ObserverList σ A → Handle → Option (ObserverList σ A)
  | [], _ => none
  | e :: rest, h => if e.node = h then some (e :: rest) else from_node rest h

/-- The constructor `Observable()`: a new, empty list. -/
def Observable.new {σ A : Type} : Observable σ A := ⟨[]⟩

/-- The member `num_observers()`: `m_observers->size()`. -/
def Observable.num_observers {σ A : Type} (self : Observable σ A) : Nat :=
  self.m_observers.length

/-- The member `subscribe(function)`: `emplace_back` of the function, then an
`Observer` holding the iterator to the last node. -/
def Observable.subscribe {σ A : Type} (self : Observable σ A) (function : Function σ A) :
    Observer × Observable σ A :=
  let handle := freshNode self.m_observers
  (⟨handle⟩, ⟨self.m_observers ++ [⟨handle, function⟩]⟩)

/-- The destructor `~Observer()`, given what `list_ptr.lock()` yields: nothing
is done when the list is gone, otherwise `list->erase(handle)`, which is
undefined when the iterator points to no node of the list. -/
def destroy {σ A : Type} (self : Observer) :
    Option (Observable σ A) → Option (Option (Observable σ A))
  | none => some none
  | some list =>
    if hasNode list.m_observers self.handle then
      some (some ⟨eraseNode list.m_observers self.handle⟩)
    else
      none

/-- A program state: the observable while it exists, the `Observer` objects that
are alive, each with the function it was subscribed with, the variables
captured by the callbacks, and the invocations made so far. -/
structure World (σ A : Type) where
  observable : Option (Observable σ A)
  live : List (Observer × Function σ A)
  env : σ
  calls : List (Handle × A)

namespace World

/-- The state after the construction of the observable. -/
def init {σ A : Type} (env : σ) : World σ A := ⟨some Observable.new, [], env, []⟩

/-- A call of `subscribe(function)`; the returned `Observer` is kept alive. -/
def subscribe {σ A : Type} (w : World σ A) (function : Function σ A) : Option (World σ A) :=
  w.observable.map fun o =>
    ⟨some (o.subscribe function).2, w.live ++ [((o.subscribe function).1, function)],
      w.env, w.calls⟩

/-- The destruction of an `Observer` that is alive. -/
def destroy_observer {σ A : Type} (w : World σ A) (ob : Observer) : Option (World σ A) :=
  if ob ∈ w.live.map Prod.fst then
    (destroy ob w.observable).map fun o1 =>
      ⟨o1, w.live.filter (fun p => decide (p.1 ≠ ob)), w.env, w.calls⟩
  else
    none

/-- One call made on the observable by a running callback. -/
def perform {σ A : Type} (w : World σ A) : Command σ A → Option (World σ A)
  | .subscribe f => w.subscribe f
  | .destroy ob => w.destroy_observer ob

/-- The calls made on the observable by a running callback, in order. -/
def perform_all {σ A : Type} (w : World σ A) : List (Command σ A) → Option (World σ A)
  | [] => some w
  | c :: cs => (w.perform c).bind (fun w1 => perform_all w1 cs)

/-- The loop `for (const auto& observer : *m_observers) observer(args...);` from
the node the iterator points to (`none`: the end of the list).  Each step calls
the function stored in the current node with the variable `args`, performs the
calls the function makes on the observable, and advances the iterator in the
list as it then is.  A function that throws ends the loop.  The result is the
final state and whether `notify` returned normally.  Erasing the node the
iterator points to is undefined; `none` also stands for a walk longer than the
given number of steps. -/
def walk {σ A : Type} : Nat → World σ A → Option Handle → A → Option (World σ A × Bool)
  | _, w, none, _ => some (w, true)
  | 0, _, some _, _ => none
  | fuel + 1, w, some h, args =>
    match w.observable with
    | none => none
    | some o =>
      match from_node o.m_observers h with
      | some (e :: _) =>
        match perform_all ⟨w.observable, w.live, (e.function args w.env).env,
            w.calls ++ [(h, args)]⟩ (e.function args w.env).commands with
        | none => none
        | some w1 =>
          match w1.observable with
          | none => none
          | some o1 =>
            match from_node o1.m_observers h with
            | some (_ :: rest) =>
              if (e.function args w.env).returns then
                walk fuel w1 (rest.head?.map Entry.node) (e.function args w.env).args
              else
                some (w1, false)
            | _ => none
      | _ => none

/-- The member `notify(args...)`, the walk starting at `m_observers->begin()`. -/
def notify {σ A : Type} (fuel : Nat) (w : World σ A) (args : A) :
    Option (World σ A × Bool) :=
  match w.observable with
  | none => none
  | some o => walk fuel w (o.m_observers.head?.map Entry.node) args

end World

/-- The calls a client can make, and the destruction of the observable; `notify`
comes with a bound on the number of steps of its walk. -/
inductive Op (σ A : Type) where
  | subscribe : Function σ A → Op σ A
  | notify : Nat → A → Op σ A
  | destroy_observer : Observer → Op σ A
  | destroy_observable : Op σ A

namespace World

/-- One client call; an exception leaving `notify` is caught by the client. -/
def step {σ A : Type} (w : World σ A) : Op σ A → Option (World σ A)
  | .subscribe f => w.subscribe f
  | .notify fuel args => (w.notify fuel args).map Prod.fst
  | .destroy_observer ob => w.destroy_observer ob
  | .destroy_observable => w.observable.map fun _ => ⟨none, w.live, w.env, w.calls⟩

/-- A sequence of client calls, left to right. -/
def run {σ A : Type} (w : World σ A) : List (Op σ A) → Option (World σ A)
  | [] => some w
  | op :: ops => (w.step op).bind (fun w1 => run w1 ops)

/-- The states a client can reach from a newly constructed observable. -/
def Reachable {σ A : Type} (w : World σ A) : Prop :=
  ∃ (env : σ) (ops : List (Op σ A)), run (init env) ops = some w

/-- While the observable exists, the nodes of its list are, in order, the live
observers with the functions they subscribed, and the observers are distinct. -/
def Inv {σ A : Type} (w : World σ A) : Prop :=
  ∀ o, w.observable = some o →
    o.m_observers.map (fun e => (Observer.mk e.node, e.function)) = w.live ∧
    (w.live.map Prod.fst).Nodup

end World

/-- A callback of the kind described by `observable.Function`, as a callback of
this section. -/
def lift {σ A : Type} (f : observable.Function σ A) : Function σ A :=
  fun a env => .mk (f a env).2 a [] true

/-- A list of callbacks of the kind described by `observable.Function`, as a list
of this section, node by node. -/
def lift_list {σ A : Type} (l : observable.ObserverList σ A) : ObserverList σ A :=
  l.map (fun e => ⟨e.node, lift e.function⟩)

end Reentrant

end observable

namespace recap.app.broadcast_queue

/-! ## Lookup lemmas -/

section lookup

variable {T : Type}

theorem node_lt_freshNode (obs : observer_list_t T) :
    ∀ s ∈ obs, s.node < freshNode obs := by
  induction obs with
  | nil => intro s hs; cases hs
  | cons a rest ih =>
    intro s hs
    simp only [freshNode]
    rcases List.mem_cons.mp hs with h | h
    · subst h
      exact Nat.lt_of_lt_of_le (Nat.lt_succ_self _) (Nat.le_max_left _ _)
    · exact Nat.lt_of_lt_of_le (ih s h) (Nat.le_max_right _ _)

theorem deref_eq_none_of_forall_ne (obs : observer_list_t T) (h : handle_t)
    (hne : ∀ s ∈ obs, s.node ≠ h) : deref obs h = none := by
  induction obs with
  | nil => rfl
  | cons a rest ih =>
    have ha : a.node ≠ h := hne a (List.mem_cons_self _ _)
    simp only [deref, if_neg ha]
    exact ih (fun s hs => hne s (List.mem_cons_of_mem _ hs))

theorem deref_freshNode (obs : observer_list_t T) : deref obs (freshNode obs) = none :=
  deref_eq_none_of_forall_ne obs _ (fun s hs => Nat.ne_of_lt (node_lt_freshNode obs s hs))

theorem deref_append (a b : observer_list_t T) (h : handle_t) :
    deref (a ++ b) h = (deref a h).orElse (fun _ => deref b h) := by
  induction a with
  | nil => simp [deref]
  | cons s rest ih =>
    by_cases hs : s.node = h
    · simp [deref, hs]
    · simp [deref, hs, ih]

theorem deref_map_queue (f : queue_type T → queue_type T) (obs : observer_list_t T)
    (h : handle_t) :
    deref (obs.map (fun s => { s with queue := f s.queue })) h = (deref obs h).map f := by
  induction obs with
  | nil => rfl
  | cons s rest ih =>
    by_cases hs : s.node = h
    · simp [deref, hs]
    · simp [deref, hs, ih]

theorem deref_assign_self (obs : observer_list_t T) (h : handle_t) (q : queue_type T)
    (hl : (deref obs h).isSome) : deref (assign obs h q) h = some q := by
  induction obs with
  | nil => simp [deref] at hl
  | cons s rest ih =>
    by_cases hs : s.node = h
    · simp [deref, assign, hs]
    · simp only [deref, if_neg hs] at hl
      simp [deref, assign, hs, ih hl]

theorem deref_assign_of_ne (obs : observer_list_t T) (h h2 : handle_t) (q : queue_type T)
    (hne : h2 ≠ h) : deref (assign obs h q) h2 = deref obs h2 := by
  induction obs with
  | nil => rfl
  | cons s rest ih =>
    by_cases hs : s.node = h
    · have hs2 : s.node ≠ h2 := fun e => hne (e.symm.trans hs)
      simp only [assign, if_pos hs, deref, if_neg hs2]
    · simp only [assign, if_neg hs, deref, ih]

theorem deref_eraseNode_of_ne (obs : observer_list_t T) (h h2 : handle_t)
    (hne : h2 ≠ h) : deref (eraseNode obs h) h2 = deref obs h2 := by
  induction obs with
  | nil => rfl
  | cons s rest ih =>
    by_cases hs : s.node = h
    · have hs2 : s.node ≠ h2 := fun e => hne (e.symm.trans hs)
      simp only [eraseNode, if_pos hs, deref, if_neg hs2]
    · simp only [eraseNode, if_neg hs, deref, ih]

theorem length_assign (obs : observer_list_t T) (h : handle_t) (q : queue_type T) :
    (assign obs h q).length = obs.length := by
  induction obs with
  | nil => rfl
  | cons s rest ih =>
    by_cases hs : s.node = h
    · simp [assign, hs]
    · simp [assign, hs, ih]

theorem handles_assign (obs : observer_list_t T) (h : handle_t) (q : queue_type T) :
    handles (assign obs h q) = handles obs := by
  induction obs with
  | nil => rfl
  | cons s rest ih =>
    by_cases hs : s.node = h
    · simp [assign, hs, handles]
    · simp only [handles] at ih
      simp [assign, hs, handles, ih]

theorem length_eraseNode (obs : observer_list_t T) (h : handle_t)
    (hl : (deref obs h).isSome) : (eraseNode obs h).length + 1 = obs.length := by
  induction obs with
  | nil => simp [deref] at hl
  | cons s rest ih =>
    by_cases hs : s.node = h
    · simp [eraseNode, hs]
    · simp only [deref, if_neg hs] at hl
      simp [eraseNode, hs, ih hl]

theorem eraseNode_append_of_deref_none (obs : observer_list_t T) (h : handle_t)
    (q : queue_type T) (hn : deref obs h = none) :
    eraseNode (obs ++ [⟨h, q⟩]) h = obs := by
  induction obs with
  | nil => simp [eraseNode]
  | cons s rest ih =>
    by_cases hs : s.node = h
    · simp [deref, hs] at hn
    · simp only [deref, if_neg hs] at hn
      simp [eraseNode, hs, ih hn]

end lookup

/-! ## Theorems about `push`, `subscribe` and `pop` -/

section claims

variable {T : Type}

theorem buffer_push (q : BroadcastQueue T) (v : T) (sub : BroadcastQueueSubscriber) :
    sub.buffer (q.push v) = (sub.buffer q).map (fun buf => buf ++ [v]) :=
  deref_map_queue (fun buf => buf ++ [v]) q.observers sub.handle

theorem buffer_clear (q : BroadcastQueue T) (sub : BroadcastQueueSubscriber) :
    sub.buffer q.clear = (sub.buffer q).map (fun _ => []) :=
  deref_map_queue (fun _ => []) q.observers sub.handle

theorem buffer_subscribe_new (q : BroadcastQueue T) :
    q.subscribe.1.buffer q.subscribe.2 = some [] := by
  simp [BroadcastQueue.subscribe, BroadcastQueueSubscriber.buffer, deref_append,
    deref_freshNode, deref]

theorem buffer_subscribe_old (q : BroadcastQueue T) (sub : BroadcastQueueSubscriber)
    (buf : queue_type T) (h : sub.buffer q = some buf) :
    sub.buffer q.subscribe.2 = some buf := by
  simp only [BroadcastQueueSubscriber.buffer] at h
  simp [BroadcastQueue.subscribe, BroadcastQueueSubscriber.buffer, deref_append, h]

theorem size_eq (sub : BroadcastQueueSubscriber) (q : BroadcastQueue T) :
    sub.size q = (sub.buffer q).map List.length := rfl

theorem empty_eq (sub : BroadcastQueueSubscriber) (q : BroadcastQueue T) :
    sub.empty q = (sub.buffer q).map List.isEmpty := rfl

theorem front_eq (sub : BroadcastQueueSubscriber) (q : BroadcastQueue T) :
    sub.front q = (sub.buffer q).bind List.head? := rfl

theorem back_eq (sub : BroadcastQueueSubscriber) (q : BroadcastQueue T) :
    sub.back q = (sub.buffer q).bind List.getLast? := rfl

theorem pop_of_buffer (sub : BroadcastQueueSubscriber) (q : BroadcastQueue T) (x : T)
    (rest : List T) (h : sub.buffer q = some (x :: rest)) :
    sub.pop q = some ⟨assign q.observers sub.handle rest⟩ := by
  simp only [BroadcastQueueSubscriber.buffer] at h
  simp [BroadcastQueueSubscriber.pop, h]

theorem pop_eq_some (sub : BroadcastQueueSubscriber) (q q1 : BroadcastQueue T)
    (h : sub.pop q = some q1) :
    ∃ x rest, sub.buffer q = some (x :: rest) ∧ q1 = ⟨assign q.observers sub.handle rest⟩ := by
  unfold BroadcastQueueSubscriber.pop at h
  split at h
  · next x rest hd =>
    exact ⟨x, rest, hd, (Option.some.inj h).symm⟩
  · cases h

theorem buffer_pop_self (sub : BroadcastQueueSubscriber) (q : BroadcastQueue T) (x : T)
    (rest : List T) (h : sub.buffer q = some (x :: rest)) :
    sub.buffer (⟨assign q.observers sub.handle rest⟩ : BroadcastQueue T) = some rest := by
  simp only [BroadcastQueueSubscriber.buffer] at h ⊢
  exact deref_assign_self _ _ _ (by simp [h])

theorem buffer_pop_other (a b : BroadcastQueueSubscriber) (q : BroadcastQueue T)
    (rest : List T) (hab : b ≠ a) :
    b.buffer (⟨assign q.observers a.handle rest⟩ : BroadcastQueue T) = b.buffer q := by
  simp only [BroadcastQueueSubscriber.buffer]
  apply deref_assign_of_ne
  intro e
  apply hab
  cases a; cases b; simp_all

/-- C1: after `push(v)` the buffer of every live subscriber is its previous
buffer with `v` appended at the back: `size()` grows by exactly 1, `back()` is
`v`, and `front()` is unchanged if the buffer was non-empty and is `v` if it was
empty. -/
theorem push_appends_to_every_live_subscriber (q : BroadcastQueue T) (v : T)
    (sub : BroadcastQueueSubscriber) (buf : queue_type T)
    (hlive : sub.buffer q = some buf) :
    sub.buffer (q.push v) = some (buf ++ [v]) ∧
    sub.size q = some buf.length ∧
    sub.size (q.push v) = some (buf.length + 1) ∧
    sub.back (q.push v) = some v ∧
    (∀ x, sub.front q = some x → sub.front (q.push v) = some x) ∧
    (sub.empty q = some true → sub.front (q.push v) = some v) := by
  have hb : sub.buffer (q.push v) = some (buf ++ [v]) := by
    rw [buffer_push, hlive]; rfl
  refine ⟨hb, ?_, ?_, ?_, ?_, ?_⟩
  · simp [size_eq, hlive]
  · simp [size_eq, hb]
  · simp [back_eq, hb]
  · intro x hx
    rw [front_eq, hlive] at hx
    rw [front_eq, hb]
    cases buf with
    | nil => simp at hx
    | cons y ys => simpa using hx
  · intro he
    rw [empty_eq, hlive] at he
    rw [front_eq, hb]
    cases buf with
    | nil => rfl
    | cons y ys => simp at he

/-- Witness for C1 on `test_queuing`: `sub1` holds 1, 2 and `push(3)` follows. -/
theorem push_appends_to_every_live_subscriber_witness :
    sub1.buffer ((BroadcastQueue.new.subscribe.2.push (1 : Int)).push 2).subscribe.2
      = some [1, 2] ∧
    sub1.back ((((BroadcastQueue.new.subscribe.2.push (1 : Int)).push 2).subscribe.2).push 3)
      = some 3 :=
  ⟨by decide,
    (push_appends_to_every_live_subscriber
      ((BroadcastQueue.new.subscribe.2.push (1 : Int)).push 2).subscribe.2 3 sub1 [1, 2]
      (by decide)).2.2.2.1⟩

theorem foldl_push_new (vs : List T) :
    vs.foldl BroadcastQueue.push (BroadcastQueue.new : BroadcastQueue T) = BroadcastQueue.new := by
  induction vs with
  | nil => rfl
  | cons v vs ih => simpa [BroadcastQueue.push, BroadcastQueue.new] using ih

/-- C2: whatever values `vs` were pushed before, the handle returned by
`subscribe()` is empty immediately after creation (`size() == 0` and
`empty() == true`); and pushes made while the hub has no subscribers leave the
hub as it was, so a subscriber created afterwards is empty (`push(0)` then
`subscribe` in `test_queuing`). -/
theorem subscribe_returns_empty_handle (q : BroadcastQueue T) (vs : List T) :
    ((vs.foldl BroadcastQueue.push q).subscribe.1.size
        (vs.foldl BroadcastQueue.push q).subscribe.2 = some 0 ∧
      (vs.foldl BroadcastQueue.push q).subscribe.1.empty
        (vs.foldl BroadcastQueue.push q).subscribe.2 = some true ∧
      (vs.foldl BroadcastQueue.push q).subscribe.1.buffer
        (vs.foldl BroadcastQueue.push q).subscribe.2 = some []) ∧
    vs.foldl BroadcastQueue.push (BroadcastQueue.new : BroadcastQueue T)
      = BroadcastQueue.new ∧
    ((BroadcastQueue.new : BroadcastQueue Int).push 0).subscribe.1 = sub1 ∧
    sub1.size ((BroadcastQueue.new : BroadcastQueue Int).push 0).subscribe.2 = some 0 ∧
    sub1.empty ((BroadcastQueue.new : BroadcastQueue Int).push 0).subscribe.2 = some true := by
  have hb := buffer_subscribe_new (vs.foldl BroadcastQueue.push q)
  refine ⟨⟨?_, ?_, hb⟩, foldl_push_new vs, by decide, by decide, by decide⟩
  · simp [size_eq, hb]
  · simp [empty_eq, hb]

theorem buffer_eraseNode_other (a b : BroadcastQueueSubscriber) (q : BroadcastQueue T)
    (hab : b ≠ a) :
    b.buffer (⟨eraseNode q.observers a.handle⟩ : BroadcastQueue T) = b.buffer q := by
  simp only [BroadcastQueueSubscriber.buffer]
  apply deref_eraseNode_of_ne
  intro e
  apply hab
  cases a; cases b; simp_all

theorem destroy_eq_some (sub : BroadcastQueueSubscriber) (q q1 : BroadcastQueue T)
    (h : sub.destroy q = some q1) :
    (sub.buffer q).isSome ∧ q1 = ⟨eraseNode q.observers sub.handle⟩ := by
  unfold BroadcastQueueSubscriber.destroy BroadcastQueue.unsubscribe at h
  split at h
  · next hl => exact ⟨hl, (Option.some.inj h).symm⟩
  · cases h

/-- One call other than `clear()`, `sub.pop()` and the destruction of `sub`
appends to the buffer of `sub` the value it pushes, if any. -/
theorem step_buffer (sub : BroadcastQueueSubscriber) (op : Op T) (w w1 : World T)
    (buf : queue_type T)
    (hop : op ≠ Op.clear ∧ op ≠ Op.pop sub ∧ op ≠ Op.destroy sub)
    (hb : sub.buffer w.queue = some buf) (hs : w.step op = some w1) :
    sub.buffer w1.queue = some (buf ++ pushed [op]) := by
  cases op with
  | subscribe =>
    simp only [World.step, Option.some.injEq] at hs
    subst hs
    simpa [pushed] using buffer_subscribe_old w.queue sub buf hb
  | push v =>
    simp only [World.step, Option.some.injEq] at hs
    subst hs
    simp [pushed, buffer_push, hb]
  | clear => exact absurd rfl hop.1
  | pop a =>
    have hne : sub ≠ a := fun e => hop.2.1 (by rw [e])
    simp only [World.step] at hs
    split at hs
    · obtain ⟨q1, hq1, rfl⟩ := Option.map_eq_some'.mp hs
      obtain ⟨x, rest, _, rfl⟩ := pop_eq_some a w.queue q1 hq1
      simpa [pushed, buffer_pop_other a sub w.queue rest hne] using hb
    · cases hs
  | destroy a =>
    have hne : sub ≠ a := fun e => hop.2.2 (by rw [e])
    simp only [World.step] at hs
    split at hs
    · obtain ⟨q1, hq1, rfl⟩ := Option.map_eq_some'.mp hs
      obtain ⟨_, rfl⟩ := destroy_eq_some a w.queue q1 hq1
      simpa [pushed, buffer_eraseNode_other a sub w.queue hne] using hb
    · cases hs

theorem pushed_cons (op : Op T) (ops : List (Op T)) :
    pushed (op :: ops) = pushed [op] ++ pushed ops := by
  cases op <;> simp [pushed]

theorem run_buffer (sub : BroadcastQueueSubscriber) (ops : List (Op T)) :
    ∀ (w w1 : World T) (buf : queue_type T),
      (∀ op ∈ ops, op ≠ Op.clear ∧ op ≠ Op.pop sub ∧ op ≠ Op.destroy sub) →
      sub.buffer w.queue = some buf → w.run ops = some w1 →
      sub.buffer w1.queue = some (buf ++ pushed ops) := by
  induction ops with
  | nil =>
    intro w w1 buf _ hb hr
    simp only [World.run, Option.some.injEq] at hr
    subst hr
    simpa [pushed] using hb
  | cons op ops ih =>
    intro w w1 buf hops hb hr
    simp only [World.run] at hr
    obtain ⟨w2, hs, hr2⟩ := Option.bind_eq_some.mp hr
    have h2 := step_buffer sub op w w2 buf (hops op (List.mem_cons_self _ _)) hb hs
    have h3 := ih w2 w1 _ (fun o ho => hops o (List.mem_cons_of_mem _ ho)) h2 hr2
    rw [h3, pushed_cons op ops, List.append_assoc]

/-- C3: if a subscriber is created and then `v1, ..., vn` are pushed in that
order, with no `pop` on that subscriber, no `clear()` and the subscriber kept
alive in between (other subscribers may be created, popped or destroyed), then
its buffer is exactly `[v1, ..., vn]`: `size() == n` and, for `n >= 1`,
`front() == v1` and `back() == vn`. -/
theorem buffer_is_pushes_since_subscription (w0 w : World T) (ops : List (Op T))
    (hops : ∀ op ∈ ops, op ≠ Op.clear ∧ op ≠ Op.pop w0.queue.subscribe.1 ∧
      op ≠ Op.destroy w0.queue.subscribe.1)
    (hrun : w0.run (Op.subscribe :: ops) = some w) :
    w0.queue.subscribe.1.buffer w.queue = some (pushed ops) ∧
    w0.queue.subscribe.1.size w.queue = some (pushed ops).length ∧
    w0.queue.subscribe.1.front w.queue = (pushed ops).head? ∧
    w0.queue.subscribe.1.back w.queue = (pushed ops).getLast? ∧
    (∀ v1 vs, pushed ops = v1 :: vs →
      w0.queue.subscribe.1.size w.queue = some (vs.length + 1) ∧
      w0.queue.subscribe.1.front w.queue = some v1 ∧
      w0.queue.subscribe.1.back w.queue = some ((v1 :: vs).getLast (List.cons_ne_nil v1 vs))) := by
  have hr : World.run ⟨w0.queue.subscribe.2, w0.live ++ [w0.queue.subscribe.1]⟩ ops = some w := by
    simpa [World.run, World.step] using hrun
  have hb := run_buffer w0.queue.subscribe.1 ops _ w [] hops (buffer_subscribe_new w0.queue) hr
  simp only [List.nil_append] at hb
  refine ⟨hb, by simp [size_eq, hb], by simp [front_eq, hb], by simp [back_eq, hb], ?_⟩
  intro v1 vs hv
  rw [size_eq, front_eq, back_eq, hb, hv]
  simp [List.getLast?_eq_getLast]

/-- Witness for C3 on `test_queuing`: `sub1` is created after `push(0)` and then
sees 1, 2, 3, 4 while `sub2` and `sub3` come and `sub3` goes. -/
theorem buffer_is_pushes_since_subscription_witness :
    (World.init.step (Op.push (0 : Int))).bind
        (fun w0 => w0.run (Op.subscribe :: test_queuing_ops))
      = some ⟨⟨[⟨0, [1, 2, 3, 4]⟩, ⟨1, [3, 4]⟩]⟩, [sub1, sub2]⟩ ∧
    sub1.buffer (⟨[⟨0, [1, 2, 3, 4]⟩, ⟨1, [3, 4]⟩]⟩ : BroadcastQueue Int)
      = some [1, 2, 3, 4] :=
  ⟨by decide,
    (buffer_is_pushes_since_subscription
      ⟨(BroadcastQueue.new : BroadcastQueue Int).push 0, []⟩
      ⟨⟨[⟨0, [1, 2, 3, 4]⟩, ⟨1, [3, 4]⟩]⟩, [sub1, sub2]⟩ test_queuing_ops
      (by decide) (by decide)).1⟩

/-- C4: on a non-empty subscriber `pop()` removes exactly the oldest value:
`size()` decreases by exactly 1, the remaining values keep their order (the new
`front()` is the former second-oldest value), and `back()` is unchanged whenever
the size was at least 2. -/
theorem pop_removes_exactly_the_oldest (q : BroadcastQueue T)
    (sub : BroadcastQueueSubscriber) (x : T) (rest : List T)
    (hbuf : sub.buffer q = some (x :: rest)) :
    ∃ q1, sub.pop q = some q1 ∧
      sub.front q = some x ∧
      sub.buffer q1 = some rest ∧
      sub.size q = some (rest.length + 1) ∧
      sub.size q1 = some rest.length ∧
      sub.front q1 = rest.head? ∧
      (2 ≤ (x :: rest).length → sub.back q1 = sub.back q) := by
  have hb := buffer_pop_self sub q x rest hbuf
  refine ⟨_, pop_of_buffer sub q x rest hbuf, by simp [front_eq, hbuf], hb,
    by simp [size_eq, hbuf], by simp [size_eq, hb], by simp [front_eq, hb], ?_⟩
  intro h2
  rw [back_eq, back_eq, hb, hbuf]
  cases rest with
  | nil => simp at h2
  | cons y ys => simp [List.getLast?_cons_cons]

/-- Witness for C4 on `test_popping`: the first `sub1.pop()`. -/
theorem pop_removes_exactly_the_oldest_witness :
    sub1.buffer test_popping_queue = some [1, 2, 3, 4] ∧
    ∃ q1, sub1.pop test_popping_queue = some q1 ∧
      sub1.front test_popping_queue = some 1 ∧
      sub1.buffer q1 = some [2, 3, 4] ∧
      sub1.size test_popping_queue = some 4 ∧
      sub1.size q1 = some 3 ∧
      sub1.front q1 = some 2 ∧
      (2 ≤ 4 → sub1.back q1 = sub1.back test_popping_queue) :=
  ⟨by decide, pop_removes_exactly_the_oldest test_popping_queue sub1 1 [2, 3, 4] (by decide)⟩

theorem drain_take (sub : BroadcastQueueSubscriber) :
    ∀ (k : Nat) (vs : List T) (q : BroadcastQueue T),
      sub.buffer q = some vs → k ≤ vs.length →
      ∃ qk, drain sub k q = some (vs.take k, qk) ∧ sub.buffer qk = some (vs.drop k) := by
  intro k
  induction k with
  | zero =>
    intro vs q hb _
    exact ⟨q, by simp [drain], by simpa using hb⟩
  | succ k ih =>
    intro vs q hb hk
    cases vs with
    | nil => simp at hk
    | cons x rest =>
      have hp := pop_of_buffer sub q x rest hb
      have hb1 := buffer_pop_self sub q x rest hb
      obtain ⟨qk, hd, hbk⟩ := ih rest _ hb1 (by simpa using hk)
      refine ⟨qk, ?_, by simpa using hbk⟩
      simp [drain, front_eq, hb, hp, hd]

/-- C5: for a subscriber holding `[v1..vn]`, reading `front()` and then calling
`pop()`, `n` times with no push in between, yields `v1, ..., vn` in push order;
the subscriber is non-empty before each of the `n` pops (after `k < n` rounds
`empty() == false` and `front()` is the next value) and `empty() == true` after
the `n`-th pop. -/
theorem drain_yields_values_in_push_order (q : BroadcastQueue T)
    (sub : BroadcastQueueSubscriber) (vs : List T) (hbuf : sub.buffer q = some vs) :
    (∃ q1, drain sub vs.length q = some (vs, q1) ∧ sub.empty q1 = some true ∧
      sub.size q1 = some 0) ∧
    (∀ k, k < vs.length →
      ∃ qk, drain sub k q = some (vs.take k, qk) ∧ sub.empty qk = some false ∧
        sub.size qk = some (vs.length - k) ∧ sub.front qk = vs.get? k) := by
  constructor
  · obtain ⟨q1, hd, hb⟩ := drain_take sub vs.length vs q hbuf (Nat.le_refl _)
    refine ⟨q1, by simpa using hd, ?_, ?_⟩
    · simp [empty_eq, hb]
    · simp [size_eq, hb]
  · intro k hk
    obtain ⟨qk, hd, hb⟩ := drain_take sub k vs q hbuf (Nat.le_of_lt hk)
    refine ⟨qk, hd, ?_, ?_, ?_⟩
    · simp only [empty_eq, hb, Option.map_some', Option.some.injEq, List.isEmpty_eq_false]
      intro h0
      have := congrArg List.length h0
      simp at this
      omega
    · simp [size_eq, hb]
    · simp [front_eq, hb, List.head?_drop]

/-- Witness for C5 on `test_popping`: `sub1` reads 1, 2, 3, 4 and is then empty. -/
theorem drain_yields_values_in_push_order_witness :
    sub1.buffer test_popping_queue = some [1, 2, 3, 4] ∧
    ∃ q1, drain sub1 4 test_popping_queue = some ([1, 2, 3, 4], q1) ∧
      sub1.empty q1 = some true ∧ sub1.size q1 = some 0 :=
  ⟨by decide,
    (drain_yields_values_in_push_order test_popping_queue sub1 [1, 2, 3, 4] (by decide)).1⟩

/-- C6: `pop()` on a live non-empty subscriber `a` leaves the buffer (size,
front, back and every element) of every other subscriber `b` unchanged, and
leaves `num_subscribers()` and the slots of the hub unchanged. -/
theorem pop_leaves_other_subscribers_unchanged (q : BroadcastQueue T)
    (a b : BroadcastQueueSubscriber) (x : T) (rest : List T)
    (ha : a.buffer q = some (x :: rest)) (hab : b ≠ a) :
    ∃ q1, a.pop q = some q1 ∧
      b.buffer q1 = b.buffer q ∧
      b.size q1 = b.size q ∧
      b.empty q1 = b.empty q ∧
      b.front q1 = b.front q ∧
      b.back q1 = b.back q ∧
      q1.num_subscribers = q.num_subscribers ∧
      handles q1.observers = handles q.observers := by
  have hb := buffer_pop_other a b q rest hab
  refine ⟨_, pop_of_buffer a q x rest ha, hb, ?_, ?_, ?_, ?_, ?_, ?_⟩
  · rw [size_eq, size_eq, hb]
  · rw [empty_eq, empty_eq, hb]
  · rw [front_eq, front_eq, hb]
  · rw [back_eq, back_eq, hb]
  · exact length_assign _ _ _
  · exact handles_assign _ _ _

/-- Witness for C6 on `test_popping`: after `sub1` pops 4 times, `sub2` still has
size 4, front 1 and back 4. -/
theorem pop_leaves_other_subscribers_unchanged_witness :
    (sub1.buffer test_popping_queue = some [1, 2, 3, 4] ∧ sub2 ≠ sub1) ∧
    (∃ q1, sub1.pop test_popping_queue = some q1 ∧
      sub2.buffer q1 = sub2.buffer test_popping_queue ∧
      sub2.size q1 = sub2.size test_popping_queue ∧
      sub2.empty q1 = sub2.empty test_popping_queue ∧
      sub2.front q1 = sub2.front test_popping_queue ∧
      sub2.back q1 = sub2.back test_popping_queue ∧
      q1.num_subscribers = test_popping_queue.num_subscribers ∧
      handles q1.observers = handles test_popping_queue.observers) ∧
    (drain sub1 4 test_popping_queue).bind
        (fun r => (sub2.size r.2).bind
          (fun n => (sub2.front r.2).bind (fun f => (sub2.back r.2).map (fun l => (n, f, l)))))
      = some (4, 1, 4) :=
  ⟨⟨by decide, by decide⟩,
    pop_leaves_other_subscribers_unchanged test_popping_queue sub1 sub2 1 [2, 3, 4]
      (by decide) (by decide),
    by decide⟩

/-! ## Theorems about the number of subscribers and about `clear` -/

theorem handles_map_queue (f : queue_type T → queue_type T) (obs : observer_list_t T) :
    handles (obs.map (fun s => { s with queue := f s.queue })) = handles obs := by
  simp [handles, Function.comp_def]

theorem handles_eraseNode (obs : observer_list_t T) (h : handle_t) :
    handles (eraseNode obs h) = (handles obs).erase ⟨h⟩ := by
  induction obs with
  | nil => rfl
  | cons s rest ih =>
    by_cases hs : s.node = h
    · simp [eraseNode, hs, handles]
    · have hne : (BroadcastQueueSubscriber.mk s.node == BroadcastQueueSubscriber.mk h) = false := by
        simpa using hs
      simp only [handles] at ih
      simp only [eraseNode, if_neg hs, handles, List.map_cons, List.erase_cons, hne, ih]
      simp

theorem deref_isSome_of_mem (obs : observer_list_t T) (sub : BroadcastQueueSubscriber)
    (hm : sub ∈ handles obs) : (deref obs sub.handle).isSome := by
  induction obs with
  | nil => simp [handles] at hm
  | cons s rest ih =>
    by_cases hs : s.node = sub.handle
    · simp [deref, hs]
    · simp only [deref, if_neg hs]
      apply ih
      simp only [handles, List.map_cons, List.mem_cons] at hm
      rcases hm with h | h
      · exact absurd (by rw [h]) hs
      · exact h

theorem step_inv (w w1 : World T) (op : Op T) (hi : w.Inv) (hs : w.step op = some w1) :
    w1.Inv := by
  unfold World.Inv at hi ⊢
  cases op with
  | subscribe =>
    simp only [World.step, Option.some.injEq] at hs
    subst hs
    simp [BroadcastQueue.subscribe, handles, ← hi]
  | push v =>
    simp only [World.step, Option.some.injEq] at hs
    subst hs
    simpa [BroadcastQueue.push, handles_map_queue (fun buf => buf ++ [v])] using hi
  | clear =>
    simp only [World.step, Option.some.injEq] at hs
    subst hs
    simpa [BroadcastQueue.clear, handles_map_queue (fun _ => [])] using hi
  | pop a =>
    simp only [World.step] at hs
    split at hs
    · obtain ⟨q1, hq1, rfl⟩ := Option.map_eq_some'.mp hs
      obtain ⟨x, rest, _, rfl⟩ := pop_eq_some a w.queue q1 hq1
      simpa [handles_assign] using hi
    · cases hs
  | destroy a =>
    simp only [World.step] at hs
    split at hs
    · obtain ⟨q1, hq1, rfl⟩ := Option.map_eq_some'.mp hs
      obtain ⟨_, rfl⟩ := destroy_eq_some a w.queue q1 hq1
      simp [handles_eraseNode, hi]
    · cases hs

theorem run_inv (ops : List (Op T)) :
    ∀ w w1 : World T, w.Inv → w.run ops = some w1 → w1.Inv := by
  induction ops with
  | nil =>
    intro w w1 hi hr
    simp only [World.run, Option.some.injEq] at hr
    exact hr ▸ hi
  | cons op ops ih =>
    intro w w1 hi hr
    simp only [World.run] at hr
    obtain ⟨w2, hs, hr2⟩ := Option.bind_eq_some.mp hr
    exact ih w2 w1 (step_inv w w2 op hi hs) hr2

theorem reachable_inv (w : World T) (hw : w.Reachable) : w.Inv := by
  obtain ⟨ops, hr⟩ := hw
  exact run_inv ops World.init w rfl hr

theorem num_subscribers_eq_length_handles (q : BroadcastQueue T) :
    q.num_subscribers = (handles q.observers).length := by
  simp [BroadcastQueue.num_subscribers, handles]

/-- C7: in every state reachable from a newly constructed hub,
`num_subscribers()` equals the number of live handles: it is 0 for a new hub,
`subscribe()` increases it by exactly 1, destroying a live handle decreases it
by exactly 1, and `push`, `clear` and `pop` leave it unchanged. -/
theorem num_subscribers_counts_live_handles (w : World T) (hw : w.Reachable) :
    w.queue.num_subscribers = w.live.length ∧
    (World.init : World T).queue.num_subscribers = 0 ∧
    (∃ w1, w.step Op.subscribe = some w1 ∧
      w1.queue.num_subscribers = w.queue.num_subscribers + 1 ∧
      w1.live.length = w.live.length + 1) ∧
    (∀ sub ∈ w.live, ∃ w1, w.step (Op.destroy sub) = some w1 ∧
      w1.queue.num_subscribers + 1 = w.queue.num_subscribers ∧
      w1.live.length + 1 = w.live.length) ∧
    (∀ v, ∃ w1, w.step (Op.push v) = some w1 ∧
      w1.queue.num_subscribers = w.queue.num_subscribers ∧ w1.live = w.live) ∧
    (∃ w1, w.step Op.clear = some w1 ∧
      w1.queue.num_subscribers = w.queue.num_subscribers ∧ w1.live = w.live) ∧
    (∀ sub w1, w.step (Op.pop sub) = some w1 →
      w1.queue.num_subscribers = w.queue.num_subscribers ∧ w1.live = w.live) := by
  have hi := reachable_inv w hw
  refine ⟨?_, rfl, ?_, ?_, ?_, ?_, ?_⟩
  · rw [num_subscribers_eq_length_handles, hi]
  · exact ⟨_, rfl, by simp [BroadcastQueue.subscribe, BroadcastQueue.num_subscribers],
      by simp⟩
  · intro sub hsub
    have hl : (deref w.queue.observers sub.handle).isSome :=
      deref_isSome_of_mem _ _ (by rw [hi]; exact hsub)
    refine ⟨⟨⟨eraseNode w.queue.observers sub.handle⟩, w.live.erase sub⟩, ?_, ?_, ?_⟩
    · simp [World.step, hsub, BroadcastQueueSubscriber.destroy, BroadcastQueue.unsubscribe, hl]
    · exact length_eraseNode _ _ hl
    · rw [List.length_erase_of_mem hsub]
      have : 0 < w.live.length := List.length_pos_of_mem hsub
      omega
  · intro v
    exact ⟨_, rfl, by simp [BroadcastQueue.push, BroadcastQueue.num_subscribers], rfl⟩
  · exact ⟨_, rfl, by simp [BroadcastQueue.clear, BroadcastQueue.num_subscribers], rfl⟩
  · intro sub w1 hs
    simp only [World.step] at hs
    split at hs
    · obtain ⟨q1, hq1, rfl⟩ := Option.map_eq_some'.mp hs
      obtain ⟨x, rest, _, rfl⟩ := pop_eq_some sub w.queue q1 hq1
      exact ⟨length_assign _ _ _, rfl⟩
    · cases hs

/-- Witness for C7 on `test_num_subscribers`: 3 handles are created, destroying
the innermost leaves 2, the full unwind leaves 0. -/
theorem num_subscribers_counts_live_handles_witness :
    (World.run World.init test_num_subscribers_ops
      = some ⟨⟨[⟨0, []⟩, ⟨1, []⟩, ⟨2, []⟩]⟩, [sub1, sub2, sub3]⟩) ∧
    (BroadcastQueue.num_subscribers (⟨[⟨0, []⟩, ⟨1, []⟩, ⟨2, []⟩]⟩ : BroadcastQueue Int) = 3) ∧
    ((World.run World.init (test_num_subscribers_ops ++ [Op.destroy sub3])).map
      (fun w => (w.queue.num_subscribers, w.live.length)) = some (2, 2)) ∧
    ((World.run World.init
        (test_num_subscribers_ops ++ [Op.destroy sub3, Op.destroy sub2, Op.destroy sub1])).map
      (fun w => (w.queue.num_subscribers, w.live.length)) = some (0, 0)) :=
  ⟨by decide,
    (num_subscribers_counts_live_handles
      ⟨⟨[⟨0, []⟩, ⟨1, []⟩, ⟨2, []⟩]⟩, [sub1, sub2, sub3]⟩
      ⟨test_num_subscribers_ops, by decide⟩).1,
    by decide, by decide⟩

/-- C8: calling `subscribe()` and immediately destroying the returned handle (as
the discarded temporary `queue.subscribe();` does) gives back the hub state
from before the call: `num_subscribers()` has its prior value and the buffer of
every subscriber is unchanged. -/
theorem subscribe_then_destroy_restores_hub (q : BroadcastQueue T) :
    q.subscribe.1.destroy q.subscribe.2 = some q ∧
    (∃ q1, q.subscribe.1.destroy q.subscribe.2 = some q1 ∧
      q1.num_subscribers = q.num_subscribers ∧
      ∀ sub : BroadcastQueueSubscriber, sub.buffer q1 = sub.buffer q) ∧
    q.subscribe.2.num_subscribers = q.num_subscribers + 1 := by
  have h : q.subscribe.1.destroy q.subscribe.2 = some q := by
    have hb := buffer_subscribe_new q
    simp only [BroadcastQueueSubscriber.buffer] at hb
    simp only [BroadcastQueueSubscriber.destroy, BroadcastQueue.unsubscribe, hb,
      Option.isSome_some, if_true]
    simp only [BroadcastQueue.subscribe]
    rw [eraseNode_append_of_deref_none _ _ _ (deref_freshNode q.observers)]
  exact ⟨h, ⟨q, h, rfl, fun _ => rfl⟩,
    by simp [BroadcastQueue.subscribe, BroadcastQueue.num_subscribers]⟩

theorem buffer_foldl_push (sub : BroadcastQueueSubscriber) (vs : List T) :
    ∀ q : BroadcastQueue T,
      sub.buffer (vs.foldl BroadcastQueue.push q) = (sub.buffer q).map (fun buf => buf ++ vs) := by
  induction vs with
  | nil => intro q; simp
  | cons v vs ih =>
    intro q
    rw [List.foldl_cons, ih, buffer_push]
    cases sub.buffer q <;> simp

/-- C9: after `clear()` every live subscriber has `size() == 0` and
`empty() == true`, whatever number of values it had buffered before. -/
theorem clear_empties_every_live_subscriber (q : BroadcastQueue T)
    (sub : BroadcastQueueSubscriber) (buf : queue_type T)
    (hlive : sub.buffer q = some buf) :
    sub.size q.clear = some 0 ∧ sub.empty q.clear = some true ∧
    sub.buffer q.clear = some [] := by
  have hb : sub.buffer q.clear = some [] := by rw [buffer_clear, hlive]; rfl
  exact ⟨by simp [size_eq, hb], by simp [empty_eq, hb], hb⟩

/-- Witness for C9 on `test_clear`: `sub1` with 6 and `sub2` with 3 buffered
values are both empty after `clear()`. -/
theorem clear_empties_every_live_subscriber_witness :
    (sub1.buffer test_clear_queue = some [1, 2, 3, 4, 5, 6] ∧
      sub2.buffer test_clear_queue = some [4, 5, 6]) ∧
    (sub1.size test_clear_queue.clear = some 0 ∧ sub1.empty test_clear_queue.clear = some true ∧
      sub1.buffer test_clear_queue.clear = some []) ∧
    sub2.size test_clear_queue.clear = some 0 ∧ sub2.empty test_clear_queue.clear = some true :=
  ⟨⟨by decide, by decide⟩,
    clear_empties_every_live_subscriber test_clear_queue sub1 [1, 2, 3, 4, 5, 6] (by decide),
    by decide, by decide⟩

/-- C10: `clear()` removes no slot and adds none: `num_subscribers()` is the same
before and after, the nodes of the hub and the live handles are the same, and
every handle that was live before `clear()` is still bound to its slot (now
empty) and receives every value pushed afterwards. -/
theorem clear_keeps_slots_and_handles (w : World T) (sub : BroadcastQueueSubscriber)
    (buf : queue_type T) (hlive : sub.buffer w.queue = some buf) (vs : List T) :
    w.queue.clear.num_subscribers = w.queue.num_subscribers ∧
    w.queue.clear.observers.map Slot.node = w.queue.observers.map Slot.node ∧
    handles w.queue.clear.observers = handles w.queue.observers ∧
    w.step Op.clear = some ⟨w.queue.clear, w.live⟩ ∧
    sub.buffer w.queue.clear = some [] ∧
    sub.buffer (vs.foldl BroadcastQueue.push w.queue.clear) = some vs := by
  have hb : sub.buffer w.queue.clear = some [] := by rw [buffer_clear, hlive]; rfl
  refine ⟨by simp [BroadcastQueue.clear, BroadcastQueue.num_subscribers],
    by simp [BroadcastQueue.clear, Function.comp_def],
    handles_map_queue (fun _ => []) _, rfl, hb, ?_⟩
  rw [buffer_foldl_push, hb]
  rfl

/-- Witness for C10 on `test_clear`: `sub1` survives `clear()` and then receives
7 and 8. -/
theorem clear_keeps_slots_and_handles_witness :
    sub1.buffer test_clear_queue = some [1, 2, 3, 4, 5, 6] ∧
    test_clear_queue.clear.num_subscribers = 2 ∧
    sub1.buffer ((test_clear_queue.clear.push 7).push 8) = some [7, 8] :=
  ⟨by decide,
    (clear_keeps_slots_and_handles ⟨test_clear_queue, [sub1, sub2]⟩ sub1 [1, 2, 3, 4, 5, 6]
      (by decide) [7, 8]).1.trans (by decide),
    (clear_keeps_slots_and_handles ⟨test_clear_queue, [sub1, sub2]⟩ sub1 [1, 2, 3, 4, 5, 6]
      (by decide) [7, 8]).2.2.2.2.2⟩

/-! ## Theorems about destruction, mutable access and well-formedness -/

theorem mem_handles_iff (obs : observer_list_t T) (sub : BroadcastQueueSubscriber) :
    sub ∈ handles obs ↔ (deref obs sub.handle).isSome := by
  refine ⟨deref_isSome_of_mem obs sub, ?_⟩
  induction obs with
  | nil => intro h; simp [deref] at h
  | cons s rest ih =>
    intro h
    by_cases hs : s.node = sub.handle
    · simp only [handles, List.map_cons, List.mem_cons]
      left
      cases sub
      simp_all
    · simp only [deref, if_neg hs] at h
      simp only [handles, List.map_cons, List.mem_cons]
      right
      exact ih h

theorem not_mem_handles_freshNode (obs : observer_list_t T) :
    (⟨freshNode obs⟩ : BroadcastQueueSubscriber) ∉ handles obs := by
  intro h
  have := (mem_handles_iff obs ⟨freshNode obs⟩).mp h
  simp [deref_freshNode] at this

theorem step_nodup (w w1 : World T) (op : Op T) (hn : (handles w.queue.observers).Nodup)
    (hs : w.step op = some w1) : (handles w1.queue.observers).Nodup := by
  cases op with
  | subscribe =>
    simp only [World.step, Option.some.injEq] at hs
    subst hs
    have hf := not_mem_handles_freshNode w.queue.observers
    simp only [BroadcastQueue.subscribe, handles, List.map_append, List.map_cons, List.map_nil]
    simp only [handles] at hn hf
    rw [List.nodup_append]
    refine ⟨hn, List.nodup_singleton _, ?_⟩
    intro a ha hb
    rw [List.mem_singleton] at hb
    exact hf (hb ▸ ha)
  | push v =>
    simp only [World.step, Option.some.injEq] at hs
    subst hs
    simpa [BroadcastQueue.push, handles_map_queue (fun buf => buf ++ [v])] using hn
  | clear =>
    simp only [World.step, Option.some.injEq] at hs
    subst hs
    simpa [BroadcastQueue.clear, handles_map_queue (fun _ => [])] using hn
  | pop a =>
    simp only [World.step] at hs
    split at hs
    · obtain ⟨q1, hq1, rfl⟩ := Option.map_eq_some'.mp hs
      obtain ⟨x, rest, _, rfl⟩ := pop_eq_some a w.queue q1 hq1
      simpa [handles_assign] using hn
    · cases hs
  | destroy a =>
    simp only [World.step] at hs
    split at hs
    · obtain ⟨q1, hq1, rfl⟩ := Option.map_eq_some'.mp hs
      obtain ⟨_, rfl⟩ := destroy_eq_some a w.queue q1 hq1
      simp only [handles_eraseNode]
      exact hn.erase _
    · cases hs

theorem run_nodup (ops : List (Op T)) :
    ∀ w w1 : World T, (handles w.queue.observers).Nodup → w.run ops = some w1 →
      (handles w1.queue.observers).Nodup := by
  induction ops with
  | nil =>
    intro w w1 hn hr
    simp only [World.run, Option.some.injEq] at hr
    exact hr ▸ hn
  | cons op ops ih =>
    intro w w1 hn hr
    simp only [World.run] at hr
    obtain ⟨w2, hs, hr2⟩ := Option.bind_eq_some.mp hr
    exact ih w2 w1 (step_nodup w w2 op hn hs) hr2

theorem reachable_nodup (w : World T) (hw : w.Reachable) :
    (handles w.queue.observers).Nodup := by
  obtain ⟨ops, hr⟩ := hw
  exact run_nodup ops World.init w (by simp [World.init, BroadcastQueue.new, handles]) hr

theorem destroy_of_mem (sub : BroadcastQueueSubscriber) (q : BroadcastQueue T)
    (h : sub ∈ handles q.observers) :
    sub.destroy q = some ⟨eraseNode q.observers sub.handle⟩ := by
  have hl := (mem_handles_iff q.observers sub).mp h
  simp [BroadcastQueueSubscriber.destroy, BroadcastQueue.unsubscribe, hl]

/-- C11: on a hub whose nodes are distinct, as the nodes of a `std::list` are,
destroying a live handle `a` removes exactly the slot bound to `a` and no
other: the slot of `a` is gone, the other slots stay in place, and every other
subscriber `b` keeps the same buffer (size, front, back, all elements) and
keeps receiving later pushes. -/
theorem destroy_removes_only_its_own_slot (q : BroadcastQueue T)
    (a b : BroadcastQueueSubscriber) (hwf : (handles q.observers).Nodup)
    (ha : a ∈ handles q.observers) (hab : b ≠ a) (vs : List T) :
    ∃ q1, a.destroy q = some q1 ∧
      handles q1.observers = (handles q.observers).erase a ∧
      a ∉ handles q1.observers ∧
      a.buffer q1 = none ∧
      q1.num_subscribers + 1 = q.num_subscribers ∧
      b.buffer q1 = b.buffer q ∧
      b.size q1 = b.size q ∧
      b.front q1 = b.front q ∧
      b.back q1 = b.back q ∧
      b.buffer (vs.foldl BroadcastQueue.push q1)
        = (b.buffer q).map (fun buf => buf ++ vs) := by
  have hb := buffer_eraseNode_other a b q hab
  have hh : handles (eraseNode q.observers a.handle) = (handles q.observers).erase a :=
    handles_eraseNode q.observers a.handle
  have hna : a ∉ handles (eraseNode q.observers a.handle) := by
    rw [hh]
    exact fun hm => (List.Nodup.mem_erase_iff hwf).mp hm |>.1 rfl
  refine ⟨_, destroy_of_mem a q ha, hh, hna, ?_, ?_, hb, ?_, ?_, ?_, ?_⟩
  · cases hd : a.buffer (⟨eraseNode q.observers a.handle⟩ : BroadcastQueue T) with
    | none => rfl
    | some buf =>
      exact absurd ((mem_handles_iff _ a).mpr (by
        simp only [BroadcastQueueSubscriber.buffer] at hd
        simp [hd])) hna
  · exact length_eraseNode _ _ ((mem_handles_iff _ a).mp ha)
  · rw [size_eq, size_eq, hb]
  · rw [front_eq, front_eq, hb]
  · rw [back_eq, back_eq, hb]
  · rw [buffer_foldl_push, hb]

/-- Witness for C11 on `test_queuing`: after `sub3` goes out of scope `sub1` still
has size 4, front 1, back 4 and `sub2` has size 2, front 3, back 4. -/
theorem destroy_removes_only_its_own_slot_witness :
    ((handles test_queuing_queue.observers).Nodup ∧ sub3 ∈ handles test_queuing_queue.observers ∧
      sub1 ≠ sub3) ∧
    (∃ q1, sub3.destroy test_queuing_queue = some q1 ∧
      handles q1.observers = (handles test_queuing_queue.observers).erase sub3 ∧
      sub3 ∉ handles q1.observers ∧
      sub3.buffer q1 = none ∧
      q1.num_subscribers + 1 = test_queuing_queue.num_subscribers ∧
      sub1.buffer q1 = sub1.buffer test_queuing_queue ∧
      sub1.size q1 = sub1.size test_queuing_queue ∧
      sub1.front q1 = sub1.front test_queuing_queue ∧
      sub1.back q1 = sub1.back test_queuing_queue ∧
      sub1.buffer (([5] : List Int).foldl BroadcastQueue.push q1)
        = (sub1.buffer test_queuing_queue).map (fun buf => buf ++ [5])) ∧
    (sub3.destroy test_queuing_queue).map
        (fun q1 => (sub1.size q1, sub1.front q1, sub1.back q1,
          sub2.size q1, sub2.front q1, sub2.back q1))
      = some (some 4, some 1, some 4, some 2, some 3, some 4) :=
  ⟨⟨by decide, by decide, by decide⟩,
    destroy_removes_only_its_own_slot test_queuing_queue sub3 sub1 (by decide) (by decide)
      (by decide) [5],
    rfl⟩

theorem write_front_of_buffer (sub : BroadcastQueueSubscriber) (q : BroadcastQueue T)
    (x y : T) (rest : List T) (h : sub.buffer q = some (x :: rest)) :
    sub.write_front q y = some ⟨assign q.observers sub.handle (y :: rest)⟩ := by
  simp only [BroadcastQueueSubscriber.buffer] at h
  simp [BroadcastQueueSubscriber.write_front, h]

theorem write_back_of_buffer (sub : BroadcastQueueSubscriber) (q : BroadcastQueue T)
    (x y : T) (rest : List T) (h : sub.buffer q = some (x :: rest)) :
    sub.write_back q y
      = some ⟨assign q.observers sub.handle ((x :: rest).dropLast ++ [y])⟩ := by
  simp only [BroadcastQueueSubscriber.buffer] at h
  simp [BroadcastQueueSubscriber.write_back, h]

theorem buffer_assign_self (sub : BroadcastQueueSubscriber) (q : BroadcastQueue T)
    (buf new : queue_type T) (h : sub.buffer q = some buf) :
    sub.buffer (⟨assign q.observers sub.handle new⟩ : BroadcastQueue T) = some new := by
  simp only [BroadcastQueueSubscriber.buffer] at h ⊢
  exact deref_assign_self _ _ _ (by simp [h])

/-- C12: each subscriber holds its own copy of every pushed value: for two
distinct subscribers `a` (non-empty) and `b`, overwriting the element returned
by the mutable `front()` or `back()` of `a` changes that element of the buffer of
`a` only, and the buffer of `b` (its `front()` and `back()` in particular) is
unchanged; after `push(v)` and an overwrite of the back of `a`, the back of `b`
is still `v`. -/
theorem mutable_access_changes_only_own_buffer (q : BroadcastQueue T)
    (a b : BroadcastQueueSubscriber) (x y : T) (rest bufb : List T)
    (ha : a.buffer q = some (x :: rest)) (hb : b.buffer q = some bufb) (hab : b ≠ a) :
    (∃ q1, a.write_front q y = some q1 ∧
      a.buffer q1 = some (y :: rest) ∧ a.front q1 = some y ∧
      b.buffer q1 = some bufb ∧ b.front q1 = b.front q ∧ b.back q1 = b.back q) ∧
    (∃ q2, a.write_back q y = some q2 ∧
      a.buffer q2 = some ((x :: rest).dropLast ++ [y]) ∧ a.back q2 = some y ∧
      b.buffer q2 = some bufb ∧ b.front q2 = b.front q ∧ b.back q2 = b.back q) ∧
    (∀ v, ∃ q3, a.write_back (q.push v) y = some q3 ∧
      a.back q3 = some y ∧ b.back q3 = some v ∧ b.buffer q3 = some (bufb ++ [v])) := by
  refine ⟨?_, ?_, ?_⟩
  · have h1 := buffer_assign_self a q _ (y :: rest) ha
    have h2 := buffer_pop_other a b q (y :: rest) hab
    refine ⟨_, write_front_of_buffer a q x y rest ha, h1, by simp [front_eq, h1],
      h2.trans hb, ?_, ?_⟩
    · rw [front_eq, front_eq, h2]
    · rw [back_eq, back_eq, h2]
  · have h1 := buffer_assign_self a q _ ((x :: rest).dropLast ++ [y]) ha
    have h2 := buffer_pop_other a b q ((x :: rest).dropLast ++ [y]) hab
    refine ⟨_, write_back_of_buffer a q x y rest ha, h1, by simp [back_eq, h1],
      h2.trans hb, ?_, ?_⟩
    · rw [front_eq, front_eq, h2]
    · rw [back_eq, back_eq, h2]
  · intro v
    have hpa : a.buffer (q.push v) = some (x :: (rest ++ [v])) := by
      rw [buffer_push, ha]; rfl
    have hpb : b.buffer (q.push v) = some (bufb ++ [v]) := by
      rw [buffer_push, hb]; rfl
    have h1 := buffer_assign_self a (q.push v) _ ((x :: (rest ++ [v])).dropLast ++ [y]) hpa
    have h2 := buffer_pop_other a b (q.push v) ((x :: (rest ++ [v])).dropLast ++ [y]) hab
    refine ⟨_, write_back_of_buffer a (q.push v) x y (rest ++ [v]) hpa,
      by simp [back_eq, h1], ?_, h2.trans hpb⟩
    rw [back_eq, h2, hpb]
    simp

/-- Witness for C12 on the hub of `test_popping`: `sub1` overwrites its front and
its back, `sub2` still reads 1 and 4. -/
theorem mutable_access_changes_only_own_buffer_witness :
    (sub1.buffer test_popping_queue = some [1, 2, 3, 4] ∧
      sub2.buffer test_popping_queue = some [1, 2, 3, 4] ∧ sub2 ≠ sub1) ∧
    (∃ q1, sub1.write_front test_popping_queue 9 = some q1 ∧
      sub1.buffer q1 = some [9, 2, 3, 4] ∧ sub1.front q1 = some 9 ∧
      sub2.buffer q1 = some [1, 2, 3, 4] ∧ sub2.front q1 = sub2.front test_popping_queue ∧
      sub2.back q1 = sub2.back test_popping_queue) ∧
    (sub1.write_back test_popping_queue 9).map (fun q2 => (sub1.buffer q2, sub2.buffer q2))
      = some (some [1, 2, 3, 9], some [1, 2, 3, 4]) :=
  ⟨⟨by decide, by decide, by decide⟩,
    (mutable_access_changes_only_own_buffer test_popping_queue sub1 sub2 1 9 [2, 3, 4]
      [1, 2, 3, 4] (by decide) (by decide) (by decide)).1,
    by decide⟩

theorem buffer_of_live (w : World T) (hw : w.Reachable) (sub : BroadcastQueueSubscriber)
    (hsub : sub ∈ w.live) : ∃ buf, sub.buffer w.queue = some buf := by
  have hi := reachable_inv w hw
  have hl : (deref w.queue.observers sub.handle).isSome :=
    deref_isSome_of_mem _ _ (by rw [hi]; exact hsub)
  exact Option.isSome_iff_exists.mp hl

/-- C13: with undefined behaviour modelled as `none`: on every reachable state
`subscribe`, `push`, `clear`, `size`, `empty` and the destruction of a live
handle succeed (`num_subscribers` is a total function), and `front()`,
`back()` and `pop()` on a live subscriber succeed if and only if that
subscriber is non-empty (`empty() == false`, equivalently `size() > 0`). -/
theorem operations_fail_only_on_empty_subscriber (w : World T) (hw : w.Reachable)
    (sub : BroadcastQueueSubscriber) (hsub : sub ∈ w.live) :
    (w.step Op.subscribe).isSome ∧
    (∀ v, (w.step (Op.push v)).isSome) ∧
    (w.step Op.clear).isSome ∧
    (∃ n, w.queue.num_subscribers = n) ∧
    (sub.size w.queue).isSome ∧
    (sub.empty w.queue).isSome ∧
    (sub.destroy w.queue).isSome ∧
    (w.step (Op.destroy sub)).isSome ∧
    ((sub.front w.queue).isSome ↔ sub.empty w.queue = some false) ∧
    ((sub.back w.queue).isSome ↔ sub.empty w.queue = some false) ∧
    ((sub.pop w.queue).isSome ↔ sub.empty w.queue = some false) ∧
    ((w.step (Op.pop sub)).isSome ↔ sub.empty w.queue = some false) ∧
    (sub.empty w.queue = some false ↔ ∃ n, sub.size w.queue = some n ∧ 0 < n) := by
  obtain ⟨buf, hb⟩ := buffer_of_live w hw sub hsub
  have hd : sub.destroy w.queue = some ⟨eraseNode w.queue.observers sub.handle⟩ :=
    destroy_of_mem sub w.queue (by rw [reachable_inv w hw]; exact hsub)
  refine ⟨rfl, fun _ => rfl, rfl, ⟨_, rfl⟩, by simp [size_eq, hb], by simp [empty_eq, hb],
    by simp [hd], by simp [World.step, hsub, hd], ?_, ?_, ?_, ?_, ?_⟩
  · cases buf <;> simp [front_eq, empty_eq, hb]
  · cases buf with
    | nil => simp [back_eq, empty_eq, hb]
    | cons x rest => simp [back_eq, empty_eq, hb, List.getLast?_eq_getLast]
  · cases buf with
    | nil =>
      simp only [BroadcastQueueSubscriber.buffer] at hb
      simp [BroadcastQueueSubscriber.pop, empty_eq, BroadcastQueueSubscriber.buffer, hb]
    | cons x rest => simp [pop_of_buffer sub w.queue x rest hb, empty_eq, hb]
  · cases buf with
    | nil =>
      simp only [BroadcastQueueSubscriber.buffer] at hb
      simp [World.step, hsub, BroadcastQueueSubscriber.pop, empty_eq,
        BroadcastQueueSubscriber.buffer, hb]
    | cons x rest => simp [World.step, hsub, pop_of_buffer sub w.queue x rest hb, empty_eq, hb]
  · cases buf <;> simp [size_eq, empty_eq, hb]

/-- Witness for C13 on `test_popping` before the first `pop`: `sub1` is live and
non-empty. -/
theorem operations_fail_only_on_empty_subscriber_witness :
    (World.run World.init
        ([.subscribe, .subscribe, .push 1, .push 2, .push 3, .push 4] : List (Op Int))
      = some ⟨test_popping_queue, [sub1, sub2]⟩ ∧ sub1 ∈ [sub1, sub2]) ∧
    ((sub1.pop test_popping_queue).isSome ↔ sub1.empty test_popping_queue = some false) ∧
    (sub1.pop test_popping_queue).isSome :=
  ⟨⟨by decide, by decide⟩,
    (operations_fail_only_on_empty_subscriber ⟨test_popping_queue, [sub1, sub2]⟩
      ⟨[.subscribe, .subscribe, .push 1, .push 2, .push 3, .push 4], by decide⟩ sub1
      (by decide)).2.2.2.2.2.2.2.2.2.2.1,
    by decide⟩

/-- C14: in every state reachable from a newly constructed hub, the slots of the
hub are, in order, the slots of the live handles; no two live handles are the
same; every live handle refers to exactly one slot, which is present in the
hub; so creating a handle or destroying another handle keeps every live
handle alive and bound to the same buffer. -/
theorem live_handles_refer_to_distinct_present_slots (w : World T) (hw : w.Reachable) :
    handles w.queue.observers = w.live ∧
    w.live.Nodup ∧
    (∀ sub ∈ w.live, (sub.buffer w.queue).isSome ∧
      (handles w.queue.observers).count sub = 1) ∧
    (∀ sub ∈ w.live, ∃ w1, w.step Op.subscribe = some w1 ∧ sub ∈ w1.live ∧
      w.queue.subscribe.1 ≠ sub ∧ sub.buffer w1.queue = sub.buffer w.queue) ∧
    (∀ sub ∈ w.live, ∀ other ∈ w.live, other ≠ sub →
      ∃ w1, w.step (Op.destroy other) = some w1 ∧ sub ∈ w1.live ∧
        sub.buffer w1.queue = sub.buffer w.queue) := by
  have hi := reachable_inv w hw
  have hn := reachable_nodup w hw
  unfold World.Inv at hi
  refine ⟨hi, hi ▸ hn, ?_, ?_, ?_⟩
  · intro sub hsub
    exact ⟨(mem_handles_iff _ sub).mp (hi ▸ hsub), List.count_eq_one_of_mem hn (hi ▸ hsub)⟩
  · intro sub hsub
    obtain ⟨buf, hb⟩ := buffer_of_live w hw sub hsub
    refine ⟨_, rfl, by simp [hsub], ?_, ?_⟩
    · intro e
      have hf := not_mem_handles_freshNode w.queue.observers
      rw [hi] at hf
      have e2 : sub = ⟨freshNode w.queue.observers⟩ := e.symm
      exact hf (e2 ▸ hsub)
    · rw [hb]
      exact buffer_subscribe_old w.queue sub buf hb
  · intro sub hsub other hother hne
    have hd := destroy_of_mem other w.queue (hi ▸ hother)
    refine ⟨⟨⟨eraseNode w.queue.observers other.handle⟩, w.live.erase other⟩, ?_, ?_, ?_⟩
    · simp [World.step, hother, hd]
    · exact (List.mem_erase_of_ne (Ne.symm hne)).mpr hsub
    · exact buffer_eraseNode_other other sub w.queue (Ne.symm hne)

/-- Witness for C14 on `test_num_subscribers` with `sub1`, `sub2` and `sub3`
alive. -/
theorem live_handles_refer_to_distinct_present_slots_witness :
    World.run World.init test_num_subscribers_ops
      = some ⟨⟨[⟨0, []⟩, ⟨1, []⟩, ⟨2, []⟩]⟩, [sub1, sub2, sub3]⟩ ∧
    handles ([⟨0, []⟩, ⟨1, []⟩, ⟨2, []⟩] : observer_list_t Int) = [sub1, sub2, sub3] ∧
    [sub1, sub2, sub3].Nodup :=
  ⟨by decide,
    (live_handles_refer_to_distinct_present_slots
      ⟨⟨[⟨0, []⟩, ⟨1, []⟩, ⟨2, []⟩]⟩, [sub1, sub2, sub3]⟩
      ⟨test_num_subscribers_ops, by decide⟩).1,
    (live_handles_refer_to_distinct_present_slots
      (⟨⟨[⟨0, []⟩, ⟨1, []⟩, ⟨2, []⟩]⟩, [sub1, sub2, sub3]⟩ : World Int)
      ⟨test_num_subscribers_ops, by decide⟩).2.1⟩

/-! ## Theorems relating `push(T&&)` to `push(const T&)` and `clear` to `pop` -/

theorem push_rvalue_loop_eq_map (obs : observer_list_t T) (v : T) :
    push_rvalue_loop obs v = obs.map (fun s => { s with queue := s.queue ++ [v] }) := by
  induction obs with
  | nil => rfl
  | cons s rest ih => simp [push_rvalue_loop, queue_push_lvalue, ih]

/-- C19: the overload `push(T&&)` does what `push(const T&)` does: for every hub
state and value `v` both produce the same hub state, and every slot of the hub
(not only the first one visited) has `v` appended, so every subscriber
receives `v` itself. -/
theorem push_rvalue_same_as_push (q : BroadcastQueue T) (v : T)
    (sub : BroadcastQueueSubscriber) (buf : queue_type T) (hlive : sub.buffer q = some buf) :
    q.push_rvalue v = q.push v ∧
    (q.push_rvalue v).observers.map Slot.queue
      = q.observers.map (fun s => s.queue ++ [v]) ∧
    (q.push_rvalue v).num_subscribers = q.num_subscribers ∧
    sub.buffer (q.push_rvalue v) = some (buf ++ [v]) ∧
    sub.back (q.push_rvalue v) = some v := by
  have he : q.push_rvalue v = q.push v := by
    simp [BroadcastQueue.push_rvalue, BroadcastQueue.push, push_rvalue_loop_eq_map]
  have hb : sub.buffer (q.push v) = some (buf ++ [v]) := by
    rw [buffer_push, hlive]; rfl
  refine ⟨he, ?_, ?_, he ▸ hb, ?_⟩
  · simp [BroadcastQueue.push_rvalue, push_rvalue_loop_eq_map, Function.comp_def]
  · simp [BroadcastQueue.push_rvalue, push_rvalue_loop_eq_map, BroadcastQueue.num_subscribers]
  · rw [he, back_eq, hb]
    simp

/-- Witness for C19 on the hub of `test_clear`: `sub2`, the second slot visited,
receives 7 from `push(T&&)`. -/
theorem push_rvalue_same_as_push_witness :
    sub2.buffer test_clear_queue = some [4, 5, 6] ∧
    sub2.buffer (test_clear_queue.push_rvalue 7) = some [4, 5, 6, 7] ∧
    sub1.buffer (test_clear_queue.push_rvalue 7) = some [1, 2, 3, 4, 5, 6, 7] :=
  ⟨by decide,
    (push_rvalue_same_as_push test_clear_queue 7 sub2 [4, 5, 6] (by decide)).2.2.2.1,
    by decide⟩

theorem assign_eq_self (obs : observer_list_t T) (h : handle_t) (b : queue_type T)
    (hd : deref obs h = some b) : assign obs h b = obs := by
  induction obs with
  | nil => rfl
  | cons s rest ih =>
    by_cases hs : s.node = h
    · simp only [deref, if_pos hs, Option.some.injEq] at hd
      subst hd
      subst hs
      simp [assign]
    · simp only [deref, if_neg hs] at hd
      simp [assign, hs, ih hd]

theorem assign_assign (obs : observer_list_t T) (h : handle_t) (a b : queue_type T) :
    assign (assign obs h a) h b = assign obs h b := by
  induction obs with
  | nil => rfl
  | cons s rest ih =>
    by_cases hs : s.node = h
    · simp [assign, hs]
    · simp [assign, hs, ih]

theorem assign_append_of_forall_ne (pre l : observer_list_t T) (h : handle_t)
    (b : queue_type T) (hne : ∀ p ∈ pre, p.node ≠ h) :
    assign (pre ++ l) h b = pre ++ assign l h b := by
  induction pre with
  | nil => rfl
  | cons p rest ih =>
    have hp : p.node ≠ h := hne p (List.mem_cons_self _ _)
    have h1 := ih (fun x hx => hne x (List.mem_cons_of_mem _ hx))
    simp [assign, hp, h1]

theorem pop_times_of_buffer (sub : BroadcastQueueSubscriber) (buf : queue_type T) :
    ∀ q : BroadcastQueue T, sub.buffer q = some buf →
      pop_times sub buf.length q = some ⟨assign q.observers sub.handle []⟩ := by
  induction buf with
  | nil =>
    intro q hb
    simp only [BroadcastQueueSubscriber.buffer] at hb
    simp [pop_times, assign_eq_self _ _ _ hb]
  | cons x rest ih =>
    intro q hb
    have h1 := ih _ (buffer_pop_self sub q x rest hb)
    simp only [List.length_cons, pop_times, pop_of_buffer sub q x rest hb, Option.some_bind]
    rw [h1, assign_assign]

theorem pop_all_append (post : observer_list_t T) :
    ∀ pre : observer_list_t T,
      (∀ s ∈ post, ∀ p ∈ pre, p.node ≠ s.node) → (handles post).Nodup →
      pop_all (handles post) (⟨pre ++ post⟩ : BroadcastQueue T)
        = some ⟨pre ++ post.map (fun s => { s with queue := [] })⟩ := by
  induction post with
  | nil => intro pre _ _; simp [pop_all, handles]
  | cons s rest ih =>
    intro pre hne hnd
    have hpre : ∀ p ∈ pre, p.node ≠ s.node := hne s (List.mem_cons_self _ _)
    have hd : deref (pre ++ s :: rest) s.node = some s.queue := by
      rw [deref_append, deref_eq_none_of_forall_ne pre s.node hpre]
      simp [deref]
    have hpt := pop_times_of_buffer (⟨s.node⟩ : BroadcastQueueSubscriber) s.queue
      (⟨pre ++ s :: rest⟩ : BroadcastQueue T) hd
    have ha : assign (pre ++ s :: rest) s.node [] = (pre ++ [⟨s.node, []⟩]) ++ rest := by
      rw [assign_append_of_forall_ne pre _ _ _ hpre]
      simp [assign]
    simp only [handles, List.map_cons] at hnd
    have hnd2 := List.nodup_cons.mp hnd
    have hrest : ∀ t ∈ rest, ∀ p ∈ pre ++ [⟨s.node, []⟩], p.node ≠ t.node := by
      intro t ht p hp
      rcases List.mem_append.mp hp with h | h
      · exact hne t (List.mem_cons_of_mem _ ht) p h
      · rw [List.mem_singleton] at h
        subst h
        intro e
        apply hnd2.1
        simp only [List.mem_map]
        exact ⟨t, ht, by simp [← e]⟩
    have hih := ih (pre ++ [⟨s.node, []⟩]) hrest hnd2.2
    simp only [handles, List.map_cons, pop_all, size_eq, BroadcastQueueSubscriber.buffer, hd,
      Option.map_some', Option.some_bind]
    rw [hpt]
    simp only [Option.some_bind, ha]
    simp only [handles] at hih
    rw [hih]
    simp

/-- C20: on a hub whose nodes are distinct, as the nodes of a `std::list` are,
`clear()` produces the same hub state
as having each live subscriber, in turn, call `pop()` exactly `size()` times:
same slots, same handles, every buffer empty. -/
theorem clear_same_as_popping_everything (q : BroadcastQueue T)
    (hwf : (handles q.observers).Nodup) :
    pop_all (handles q.observers) q = some q.clear ∧
    handles q.clear.observers = handles q.observers ∧
    (∀ s ∈ q.clear.observers, s.queue = []) := by
  refine ⟨?_, handles_map_queue (fun _ => []) _, ?_⟩
  · have := pop_all_append q.observers [] (fun _ _ p hp => absurd hp (List.not_mem_nil p)) hwf
    simpa [BroadcastQueue.clear] using this
  · intro s hs
    simp only [BroadcastQueue.clear, List.mem_map] at hs
    obtain ⟨t, _, rfl⟩ := hs
    rfl

/-- Witness for C20 on the hub of `test_clear`: `sub1` pops 6 times and `sub2` pops
3 times. -/
theorem clear_same_as_popping_everything_witness :
    (handles test_clear_queue.observers).Nodup ∧
    handles test_clear_queue.observers = [sub1, sub2] ∧
    (pop_times sub1 6 test_clear_queue).bind (pop_times sub2 3) = some test_clear_queue.clear ∧
    pop_all (handles test_clear_queue.observers) test_clear_queue
      = some test_clear_queue.clear :=
  ⟨by decide, by decide, by decide,
    (clear_same_as_popping_everything test_clear_queue (by decide)).1⟩

/-! ## Theorems about the push history -/

theorem deref_mem (obs : observer_list_t T) (h : handle_t) (b : queue_type T)
    (hd : deref obs h = some b) : (⟨h, b⟩ : Slot T) ∈ obs := by
  induction obs with
  | nil => simp [deref] at hd
  | cons s rest ih =>
    by_cases hs : s.node = h
    · simp only [deref, if_pos hs, Option.some.injEq] at hd
      subst hd
      subst hs
      exact List.mem_cons_self _ _
    · simp only [deref, if_neg hs] at hd
      exact List.mem_cons_of_mem _ (ih hd)

theorem mem_assign (obs : observer_list_t T) (h : handle_t) (q : queue_type T) (s : Slot T)
    (hs : s ∈ assign obs h q) : s ∈ obs ∨ s.queue = q := by
  induction obs with
  | nil => simp [assign] at hs
  | cons t rest ih =>
    by_cases ht : t.node = h
    · simp only [assign, if_pos ht, List.mem_cons] at hs
      rcases hs with e | e
      · right; rw [e]
      · left; exact List.mem_cons_of_mem _ e
    · simp only [assign, if_neg ht, List.mem_cons] at hs
      rcases hs with e | e
      · left; rw [e]; exact List.mem_cons_self _ _
      · rcases ih e with m | m
        · left; exact List.mem_cons_of_mem _ m
        · right; exact m

theorem mem_eraseNode (obs : observer_list_t T) (h : handle_t) (s : Slot T)
    (hs : s ∈ eraseNode obs h) : s ∈ obs := by
  induction obs with
  | nil => simp [eraseNode] at hs
  | cons t rest ih =>
    by_cases ht : t.node = h
    · simp only [eraseNode, if_pos ht] at hs
      exact List.mem_cons_of_mem _ hs
    · simp only [eraseNode, if_neg ht, List.mem_cons] at hs
      rcases hs with e | e
      · rw [e]; exact List.mem_cons_self _ _
      · exact List.mem_cons_of_mem _ (ih e)

/-- One call keeps every buffer a suffix of the values pushed so far. -/
theorem step_suffix (w w1 : World T) (op : Op T) (hist : List T)
    (hi : ∀ s ∈ w.queue.observers, s.queue <:+ hist) (hs : w.step op = some w1) :
    ∀ s ∈ w1.queue.observers, s.queue <:+ hist ++ pushed [op] := by
  cases op with
  | subscribe =>
    simp only [World.step, Option.some.injEq] at hs
    subst hs
    intro s hm
    simp only [BroadcastQueue.subscribe, List.mem_append, List.mem_singleton] at hm
    rcases hm with m | m
    · simpa [pushed] using hi s m
    · subst m
      exact List.nil_suffix
  | push v =>
    simp only [World.step, Option.some.injEq] at hs
    subst hs
    intro s hm
    simp only [BroadcastQueue.push, List.mem_map] at hm
    obtain ⟨t, ht, rfl⟩ := hm
    obtain ⟨pre, hpre⟩ := hi t ht
    exact ⟨pre, by simp [pushed, ← hpre]⟩
  | clear =>
    simp only [World.step, Option.some.injEq] at hs
    subst hs
    intro s hm
    simp only [BroadcastQueue.clear, List.mem_map] at hm
    obtain ⟨t, _, rfl⟩ := hm
    exact List.nil_suffix
  | pop a =>
    simp only [World.step] at hs
    split at hs
    · obtain ⟨q1, hq1, rfl⟩ := Option.map_eq_some'.mp hs
      obtain ⟨x, rest, hb, rfl⟩ := pop_eq_some a w.queue q1 hq1
      intro s hm
      simp only [pushed, List.append_nil]
      rcases mem_assign _ _ _ s hm with m | m
      · exact hi s m
      · rw [m]
        have h1 := hi _ (deref_mem _ _ _ hb)
        exact (List.suffix_cons x rest).trans h1
    · cases hs
  | destroy a =>
    simp only [World.step] at hs
    split at hs
    · obtain ⟨q1, hq1, rfl⟩ := Option.map_eq_some'.mp hs
      obtain ⟨_, rfl⟩ := destroy_eq_some a w.queue q1 hq1
      intro s hm
      simpa [pushed] using hi s (mem_eraseNode _ _ s hm)
    · cases hs

theorem run_suffix (ops : List (Op T)) :
    ∀ (w w1 : World T) (hist : List T),
      (∀ s ∈ w.queue.observers, s.queue <:+ hist) → w.run ops = some w1 →
      ∀ s ∈ w1.queue.observers, s.queue <:+ hist ++ pushed ops := by
  induction ops with
  | nil =>
    intro w w1 hist hi hr
    simp only [World.run, Option.some.injEq] at hr
    subst hr
    simpa [pushed] using hi
  | cons op ops ih =>
    intro w w1 hist hi hr
    simp only [World.run] at hr
    obtain ⟨w2, hs, hr2⟩ := Option.bind_eq_some.mp hr
    have h3 := ih w2 w1 _ (step_suffix w w2 op hist hi hs) hr2
    rw [pushed_cons op ops, ← List.append_assoc]
    exact h3

/-- After a run from a new hub every buffer is a suffix of the values pushed. -/
theorem buffer_suffix_of_pushed (ops : List (Op T)) (w : World T)
    (hr : World.run World.init ops = some w) (sub : BroadcastQueueSubscriber)
    (buf : queue_type T) (hb : sub.buffer w.queue = some buf) : buf <:+ pushed ops := by
  have h := run_suffix ops World.init w []
    (by intro s hs; simp [World.init, BroadcastQueue.new] at hs) hr
  simpa using h _ (deref_mem _ _ _ hb)

theorem reverse_getElem?_of_suffix (l1 l2 : List T) (h : l1 <:+ l2) (k : Nat)
    (hk : k < l1.length) : l1.reverse[k]? = l2.reverse[k]? := by
  obtain ⟨pre, rfl⟩ := h
  rw [List.reverse_append, List.getElem?_append_left (by simpa using hk)]

/-- C21: in every state reachable from a newly constructed hub, for any two live
subscribers one buffer is a suffix of the other, so the two buffers agree at
every position counted from the back that both have.  Instance: if a
subscriber is created, the values `xs` are pushed, a second subscriber is
created and the values `ys` are pushed, the first has size
`xs.length + ys.length`, the second has size `ys.length`, and the front of the
second is the value pushed at position `xs.length + 1`. -/
theorem live_buffers_are_suffixes_of_each_other (w : World T) (hw : w.Reachable)
    (a b : BroadcastQueueSubscriber) (ha : a ∈ w.live) (hb : b ∈ w.live) :
    (∃ bufa bufb, a.buffer w.queue = some bufa ∧ b.buffer w.queue = some bufb ∧
      (bufa <:+ bufb ∨ bufb <:+ bufa) ∧
      ∀ k, k < bufa.length → k < bufb.length → bufa.reverse[k]? = bufb.reverse[k]?) ∧
    (∀ (q0 : BroadcastQueue T) (xs ys : List T),
      q0.subscribe.1.buffer
          (ys.foldl BroadcastQueue.push
            (xs.foldl BroadcastQueue.push q0.subscribe.2).subscribe.2) = some (xs ++ ys) ∧
      q0.subscribe.1.size
          (ys.foldl BroadcastQueue.push
            (xs.foldl BroadcastQueue.push q0.subscribe.2).subscribe.2)
        = some (xs.length + ys.length) ∧
      (xs.foldl BroadcastQueue.push q0.subscribe.2).subscribe.1.size
          (ys.foldl BroadcastQueue.push
            (xs.foldl BroadcastQueue.push q0.subscribe.2).subscribe.2)
        = some ys.length ∧
      (xs.foldl BroadcastQueue.push q0.subscribe.2).subscribe.1.front
          (ys.foldl BroadcastQueue.push
            (xs.foldl BroadcastQueue.push q0.subscribe.2).subscribe.2)
        = ys.head? ∧
      (ys ≠ [] → ys.head? = (xs ++ ys)[xs.length]?)) := by
  constructor
  · obtain ⟨ops, hr⟩ := hw
    obtain ⟨bufa, hba⟩ := buffer_of_live w ⟨ops, hr⟩ a ha
    obtain ⟨bufb, hbb⟩ := buffer_of_live w ⟨ops, hr⟩ b hb
    have sa := buffer_suffix_of_pushed ops w hr a bufa hba
    have sb := buffer_suffix_of_pushed ops w hr b bufb hbb
    refine ⟨bufa, bufb, hba, hbb, List.suffix_or_suffix_of_suffix sa sb, ?_⟩
    intro k hka hkb
    rw [reverse_getElem?_of_suffix bufa _ sa k hka, reverse_getElem?_of_suffix bufb _ sb k hkb]
  · intro q0 xs ys
    have h1 : q0.subscribe.1.buffer (xs.foldl BroadcastQueue.push q0.subscribe.2)
        = some xs := by
      rw [buffer_foldl_push, buffer_subscribe_new]; rfl
    have h2 := buffer_subscribe_old _ _ _ h1
    have h3 : q0.subscribe.1.buffer
        (ys.foldl BroadcastQueue.push
          (xs.foldl BroadcastQueue.push q0.subscribe.2).subscribe.2) = some (xs ++ ys) := by
      rw [buffer_foldl_push, h2]; rfl
    have h4 : (xs.foldl BroadcastQueue.push q0.subscribe.2).subscribe.1.buffer
        (ys.foldl BroadcastQueue.push
          (xs.foldl BroadcastQueue.push q0.subscribe.2).subscribe.2) = some ys := by
      rw [buffer_foldl_push, buffer_subscribe_new]; rfl
    refine ⟨h3, by simp [size_eq, h3], by simp [size_eq, h4], by simp [front_eq, h4], ?_⟩
    intro hne
    cases ys with
    | nil => exact absurd rfl hne
    | cons y rest =>
      rw [List.getElem?_append_right (Nat.le_refl _)]
      simp

/-- Witness for C21 on `test_clear` before `queue.clear()` (`a = b = 3`): `sub1` has
size 6, `sub2` has size 3 and its front is 4, the fourth value pushed. -/
theorem live_buffers_are_suffixes_of_each_other_witness :
    (World.run World.init test_clear_ops = some ⟨test_clear_queue, [sub1, sub2]⟩ ∧
      sub1 ∈ [sub1, sub2] ∧ sub2 ∈ [sub1, sub2]) ∧
    (∃ bufa bufb, sub1.buffer test_clear_queue = some bufa ∧
      sub2.buffer test_clear_queue = some bufb ∧
      (bufa <:+ bufb ∨ bufb <:+ bufa) ∧
      ∀ k, k < bufa.length → k < bufb.length → bufa.reverse[k]? = bufb.reverse[k]?) ∧
    sub1.size test_clear_queue = some 6 ∧ sub2.size test_clear_queue = some 3 ∧
    sub2.front test_clear_queue = some 4 :=
  ⟨⟨by decide, by decide, by decide⟩,
    (live_buffers_are_suffixes_of_each_other ⟨test_clear_queue, [sub1, sub2]⟩
      ⟨test_clear_ops, by decide⟩ sub1 sub2 (by decide) (by decide)).1,
    by decide, by decide, by decide⟩

theorem assign_map_push (obs : observer_list_t T) (h : handle_t) (rest : queue_type T)
    (v : T) :
    assign (obs.map (fun s => { s with queue := s.queue ++ [v] })) h (rest ++ [v])
      = (assign obs h rest).map (fun s => { s with queue := s.queue ++ [v] }) := by
  induction obs with
  | nil => rfl
  | cons s tl ih =>
    by_cases hs : s.node = h
    · simp [assign, hs]
    · simp [assign, hs, ih]

/-- C22: draining is independent of the producer: for a subscriber `a` that is
non-empty, `a.pop()` followed by `push(v)` gives the same hub state as `push(v)`
followed by `a.pop()`.  On an empty subscriber `e` the first order is undefined
(`pop` on an empty queue) while the second succeeds and removes `v`. -/
theorem pop_commutes_with_push (q : BroadcastQueue T) (a : BroadcastQueueSubscriber)
    (v x : T) (rest : List T) (ha : a.buffer q = some (x :: rest)) :
    (a.pop q).map (fun q1 => q1.push v) = a.pop (q.push v) ∧
    (∃ q2, a.pop (q.push v) = some q2 ∧ (a.pop q).map (fun q1 => q1.push v) = some q2 ∧
      a.buffer q2 = some (rest ++ [v])) ∧
    (∀ e : BroadcastQueueSubscriber, e.buffer q = some [] →
      e.pop q = none ∧ ∃ q3, e.pop (q.push v) = some q3 ∧ e.buffer q3 = some []) := by
  have hp : a.buffer (q.push v) = some (x :: (rest ++ [v])) := by
    rw [buffer_push, ha]; rfl
  have h1 := pop_of_buffer a q x rest ha
  have h2 := pop_of_buffer a (q.push v) x (rest ++ [v]) hp
  have he : (a.pop q).map (fun q1 => q1.push v) = a.pop (q.push v) := by
    rw [h1, h2]
    simp [BroadcastQueue.push, assign_map_push]
  refine ⟨he, ⟨_, h2, he.trans h2, buffer_pop_self a (q.push v) x (rest ++ [v]) hp⟩, ?_⟩
  intro e hem
  have hpe : e.buffer (q.push v) = some [v] := by
    rw [buffer_push, hem]; rfl
  refine ⟨?_, _, pop_of_buffer e (q.push v) v [] hpe, buffer_pop_self e (q.push v) v [] hpe⟩
  simp only [BroadcastQueueSubscriber.buffer] at hem
  simp [BroadcastQueueSubscriber.pop, hem]

/-- Witness for C22 on the hub of `test_popping`: `sub1.pop()` and `push(5)` in
either order. -/
theorem pop_commutes_with_push_witness :
    sub1.buffer test_popping_queue = some [1, 2, 3, 4] ∧
    (sub1.pop test_popping_queue).map (fun q1 => q1.push 5)
      = sub1.pop (test_popping_queue.push 5) ∧
    (sub1.pop (test_popping_queue.push 5)).bind sub1.buffer = some [2, 3, 4, 5] :=
  ⟨by decide,
    (pop_commutes_with_push test_popping_queue sub1 5 1 [2, 3, 4] (by decide)).1,
    by decide⟩

/-- C23: `subscribe()` leaves the buffer of every already live subscriber
unchanged (same size, front, back and elements) and adds exactly one new slot,
at the end of the list, which is empty and bound to the returned handle. -/
theorem subscribe_adds_one_empty_slot (q : BroadcastQueue T)
    (sub : BroadcastQueueSubscriber) (buf : queue_type T) (hlive : sub.buffer q = some buf) :
    sub.buffer q.subscribe.2 = some buf ∧
    sub.size q.subscribe.2 = sub.size q ∧
    sub.empty q.subscribe.2 = sub.empty q ∧
    sub.front q.subscribe.2 = sub.front q ∧
    sub.back q.subscribe.2 = sub.back q ∧
    q.subscribe.2.observers = q.observers ++ [⟨q.subscribe.1.handle, []⟩] ∧
    q.subscribe.2.num_subscribers = q.num_subscribers + 1 ∧
    q.subscribe.1 ∉ handles q.observers ∧
    q.subscribe.1 ≠ sub ∧
    q.subscribe.1.buffer q.subscribe.2 = some [] := by
  have hb := buffer_subscribe_old q sub buf hlive
  have hf : q.subscribe.1 ∉ handles q.observers := not_mem_handles_freshNode q.observers
  refine ⟨hb, ?_, ?_, ?_, ?_, rfl, ?_, hf, ?_, buffer_subscribe_new q⟩
  · rw [size_eq, size_eq, hb, hlive]
  · rw [empty_eq, empty_eq, hb, hlive]
  · rw [front_eq, front_eq, hb, hlive]
  · rw [back_eq, back_eq, hb, hlive]
  · simp [BroadcastQueue.subscribe, BroadcastQueue.num_subscribers]
  · intro e
    apply hf
    rw [e]
    exact (mem_handles_iff q.observers sub).mpr (by
      simp only [BroadcastQueueSubscriber.buffer] at hlive
      simp [hlive])

/-- Witness for C23 on `test_queuing`: the creation of `sub2` leaves `sub1` with 1,
2. -/
theorem subscribe_adds_one_empty_slot_witness :
    sub1.buffer ((BroadcastQueue.new.subscribe.2.push (1 : Int)).push 2) = some [1, 2] ∧
    sub1.buffer ((BroadcastQueue.new.subscribe.2.push (1 : Int)).push 2).subscribe.2
      = some [1, 2] ∧
    sub2.buffer ((BroadcastQueue.new.subscribe.2.push (1 : Int)).push 2).subscribe.2
      = some [] :=
  ⟨by decide,
    (subscribe_adds_one_empty_slot ((BroadcastQueue.new.subscribe.2.push (1 : Int)).push 2)
      sub1 [1, 2] (by decide)).1,
    by decide⟩

/-- C24: in every state reached from a newly constructed hub by `subscribe`,
`push`, `pop`, `clear` and destruction of handles, all non-empty live
subscribers report the same `back()`, and it is the value of the most recent
push. -/
theorem nonempty_subscribers_report_latest_push (ops : List (Op T)) (w : World T)
    (hrun : World.run World.init ops = some w) (a b : BroadcastQueueSubscriber)
    (ha : a ∈ w.live) (hb : b ∈ w.live) :
    (∀ x, a.back w.queue = some x → (pushed ops).getLast? = some x) ∧
    (∀ x y, a.back w.queue = some x → b.back w.queue = some y → x = y) ∧
    (a.empty w.queue = some false → b.empty w.queue = some false →
      a.back w.queue = b.back w.queue ∧ a.back w.queue = (pushed ops).getLast?) := by
  have key : ∀ (c : BroadcastQueueSubscriber) (x : T), c.back w.queue = some x →
      (pushed ops).getLast? = some x := by
    intro c x hx
    rw [back_eq] at hx
    obtain ⟨buf, hbuf, hlast⟩ := Option.bind_eq_some.mp hx
    obtain ⟨pre, hpre⟩ := buffer_suffix_of_pushed ops w hrun c buf hbuf
    rw [← hpre, List.getLast?_append, hlast]
    rfl
  have nonempty : ∀ c : BroadcastQueueSubscriber, c ∈ w.live →
      c.empty w.queue = some false → ∃ x, c.back w.queue = some x := by
    intro c hc he
    obtain ⟨buf, hbuf⟩ := buffer_of_live w ⟨ops, hrun⟩ c hc
    rw [empty_eq, hbuf] at he
    cases buf with
    | nil => simp at he
    | cons y rest =>
      exact ⟨(y :: rest).getLast (List.cons_ne_nil _ _), by
        rw [back_eq, hbuf]
        simp [List.getLast?_eq_getLast]⟩
  refine ⟨key a, ?_, ?_⟩
  · intro x y hx hy
    have h1 := key a x hx
    have h2 := key b y hy
    rw [h1] at h2
    exact Option.some.inj h2
  · intro hea heb
    obtain ⟨x, hx⟩ := nonempty a ha hea
    obtain ⟨y, hy⟩ := nonempty b hb heb
    have h1 := key a x hx
    have h2 := key b y hy
    have hxy : x = y := Option.some.inj (h1.symm.trans h2)
    subst hxy
    exact ⟨hx.trans hy.symm, hx.trans h1.symm⟩

/-- Witness for C24 on `test_queuing` after the inner scope: `sub1` holds 1, 2, 3,
4 and `sub2` holds 3, 4; both report 4, the last value pushed. -/
theorem nonempty_subscribers_report_latest_push_witness :
    (World.run World.init ([.push 0, .subscribe] ++ test_queuing_ops)
        = some ⟨⟨[⟨0, [1, 2, 3, 4]⟩, ⟨1, [3, 4]⟩]⟩, [sub1, sub2]⟩ ∧
      sub1 ∈ [sub1, sub2] ∧ sub2 ∈ [sub1, sub2]) ∧
    (∀ x, sub1.back (⟨[⟨0, [1, 2, 3, 4]⟩, ⟨1, [3, 4]⟩]⟩ : BroadcastQueue Int) = some x →
      (pushed ([.push 0, .subscribe] ++ test_queuing_ops)).getLast? = some x) ∧
    sub1.back (⟨[⟨0, [1, 2, 3, 4]⟩, ⟨1, [3, 4]⟩]⟩ : BroadcastQueue Int) = some 4 ∧
    sub2.back (⟨[⟨0, [1, 2, 3, 4]⟩, ⟨1, [3, 4]⟩]⟩ : BroadcastQueue Int) = some 4 :=
  ⟨⟨by decide, by decide, by decide⟩,
    (nonempty_subscribers_report_latest_push ([.push 0, .subscribe] ++ test_queuing_ops)
      ⟨⟨[⟨0, [1, 2, 3, 4]⟩, ⟨1, [3, 4]⟩]⟩, [sub1, sub2]⟩ (by decide) sub1 sub2
      (by decide) (by decide)).1,
    by decide, by decide⟩

end claims

end recap.app.broadcast_queue

/-! # Theorems about `Observable` -/

namespace observable

section lemmas

variable {σ A : Type}

theorem entry_lt_freshNode (l : ObserverList σ A) : ∀ e ∈ l, e.node < freshNode l := by
  induction l with
  | nil => intro e he; cases he
  | cons a rest ih =>
    intro e he
    simp only [freshNode]
    rcases List.mem_cons.mp he with h | h
    · subst h
      exact Nat.lt_of_lt_of_le (Nat.lt_succ_self _) (Nat.le_max_left _ _)
    · exact Nat.lt_of_lt_of_le (ih e h) (Nat.le_max_right _ _)

theorem observer_fresh_not_mem (l : ObserverList σ A) :
    (⟨freshNode l⟩ : Observer) ∉ handles l := by
  intro h
  simp only [handles, List.mem_map] at h
  obtain ⟨e, he, heq⟩ := h
  have h1 := entry_lt_freshNode l e he
  have h2 : e.node = freshNode l := by simpa using heq
  exact absurd h2 (Nat.ne_of_lt h1)

theorem hasNode_of_mem (l : ObserverList σ A) (ob : Observer) (h : ob ∈ handles l) :
    hasNode l ob.handle = true := by
  induction l with
  | nil => simp [handles] at h
  | cons e rest ih =>
    by_cases he : e.node = ob.handle
    · simp [hasNode, he]
    · simp only [hasNode, if_neg he]
      apply ih
      simp only [handles, List.map_cons, List.mem_cons] at h
      rcases h with h | h
      · exact absurd (by rw [h]) he
      · exact h

theorem observer_handles_eraseNode (l : ObserverList σ A) (h : Handle) :
    handles (eraseNode l h) = (handles l).erase ⟨h⟩ := by
  induction l with
  | nil => rfl
  | cons e rest ih =>
    by_cases he : e.node = h
    · simp [eraseNode, he, handles]
    · have hne : (Observer.mk e.node == Observer.mk h) = false := by simpa using he
      simp only [handles] at ih
      simp only [eraseNode, if_neg he, handles, List.map_cons, List.erase_cons, hne, ih]
      simp

theorem observer_length_eraseNode (l : ObserverList σ A) (h : Handle)
    (hn : hasNode l h = true) : (eraseNode l h).length + 1 = l.length := by
  induction l with
  | nil => simp [hasNode] at hn
  | cons e rest ih =>
    by_cases he : e.node = h
    · simp [eraseNode, he]
    · simp only [hasNode, if_neg he] at hn
      simp [eraseNode, he, ih hn]

theorem notify_loop_eq (l : ObserverList σ A) (x : A) :
    ∀ (env : σ) (calls : List (Handle × A)),
      notify_loop l x env calls
        = (l.foldl (fun e n => (n.function x e).2) env,
            calls ++ l.map (fun n => (n.node, x))) := by
  induction l with
  | nil => intro env calls; simp [notify_loop]
  | cons e rest ih =>
    intro env calls
    simp [notify_loop, invoke, ih]

theorem observer_destroy_of_mem (o : Observable σ A) (ob : Observer)
    (h : ob ∈ handles o.m_observers) :
    ob.destroy (some o) = some (some ⟨eraseNode o.m_observers ob.handle⟩) := by
  simp [Observer.destroy, hasNode_of_mem _ _ h]

theorem observable_step_inv (w w1 : World σ A) (op : Op σ A) (hi : w.Inv)
    (hs : w.step op = some w1) : w1.Inv := by
  cases op with
  | subscribe f =>
    simp only [World.step] at hs
    obtain ⟨o, ho, rfl⟩ := Option.map_eq_some'.mp hs
    obtain ⟨h1, h2⟩ := hi o ho
    intro o1 ho1
    simp only [Option.some.injEq] at ho1
    subst ho1
    have hf := observer_fresh_not_mem o.m_observers
    rw [h1] at hf
    refine ⟨by simp [Observable.subscribe, handles, ← h1], ?_⟩
    rw [List.nodup_append]
    refine ⟨h2, List.nodup_singleton _, ?_⟩
    intro a ha hb
    rw [List.mem_singleton] at hb
    subst hb
    exact hf ha
  | notify x =>
    simp only [World.step] at hs
    obtain ⟨o, ho, rfl⟩ := Option.map_eq_some'.mp hs
    intro o1 ho1
    simp only [Option.some.injEq] at ho1
    subst ho1
    exact hi _ ho
  | destroy_observer ob =>
    simp only [World.step] at hs
    split at hs
    · next hmem =>
      obtain ⟨r, hr, rfl⟩ := Option.map_eq_some'.mp hs
      intro o1 ho1
      simp only at ho1
      subst ho1
      cases hw : w.observable with
      | none => simp [hw, Observer.destroy] at hr
      | some o =>
        obtain ⟨h1, h2⟩ := hi o hw
        rw [hw, observer_destroy_of_mem o ob (h1 ▸ hmem)] at hr
        simp only [Option.some.injEq] at hr
        subst hr
        exact ⟨by rw [observer_handles_eraseNode, h1], h2.erase _⟩
    · cases hs
  | destroy_observable =>
    simp only [World.step] at hs
    obtain ⟨o, _, rfl⟩ := Option.map_eq_some'.mp hs
    intro o1 ho1
    cases ho1

theorem observable_run_inv (ops : List (Op σ A)) :
    ∀ w w1 : World σ A, w.Inv → w.run ops = some w1 → w1.Inv := by
  induction ops with
  | nil =>
    intro w w1 hi hr
    simp only [World.run, Option.some.injEq] at hr
    exact hr ▸ hi
  | cons op ops ih =>
    intro w w1 hi hr
    simp only [World.run] at hr
    obtain ⟨w2, hs, hr2⟩ := Option.bind_eq_some.mp hr
    exact ih w2 w1 (observable_step_inv w w2 op hi hs) hr2

theorem observable_reachable_inv (w : World σ A) (hw : w.Reachable) : w.Inv := by
  obtain ⟨env, ops, hr⟩ := hw
  refine observable_run_inv ops (World.init env) w ?_ hr
  intro o ho
  simp only [World.init, Option.some.injEq] at ho
  subst ho
  exact ⟨rfl, List.nodup_nil⟩

end lemmas

/-! ## Theorems about callbacks that use the observable -/

namespace Reentrant

section lemmas

variable {σ A : Type}

theorem from_node_append (pre rest : ObserverList σ A) (e : Entry σ A)
    (hne : ∀ p ∈ pre, p.node ≠ e.node) :
    from_node (pre ++ e :: rest) e.node = some (e :: rest) := by
  induction pre with
  | nil => simp [from_node]
  | cons p tl ih =>
    have hp : p.node ≠ e.node := hne p (List.mem_cons_self _ _)
    simp only [List.cons_append, from_node, if_neg hp]
    exact ih (fun q hq => hne q (List.mem_cons_of_mem _ hq))

theorem walk_none (fuel : Nat) (w : World σ A) (args : A) :
    World.walk fuel w none args = some (w, true) := by
  cases fuel <;> rfl

/-- The walk over callbacks that are quiet: every node from the iterator to the
end is called once with `x`, in list order, and the list stays as it is. -/
theorem walk_quiet (x : A) :
    ∀ (todo pre : ObserverList σ A) (fuel : Nat) (w : World σ A),
      w.observable = some ⟨pre ++ todo⟩ →
      (∀ t ∈ todo, ∀ p ∈ pre, p.node ≠ t.node) →
      (todo.map (fun e => Observer.mk e.node)).Nodup →
      (∀ e ∈ todo, e.function.quiet) →
      todo.length ≤ fuel →
      World.walk fuel w (todo.head?.map Entry.node) x
        = some (⟨w.observable, w.live, todo.foldl (fun env e => (e.function x env).env) w.env,
            w.calls ++ todo.map (fun e => (e.node, x))⟩, true) := by
  intro todo
  induction todo with
  | nil =>
    intro pre fuel w _ _ _ _ _
    simp [walk_none]
  | cons e rest ih =>
    intro pre fuel w ho hne hnd hq hfuel
    cases fuel with
    | zero => simp at hfuel
    | succ fuel =>
      have hpre : ∀ p ∈ pre, p.node ≠ e.node := hne e (List.mem_cons_self _ _)
      have hfrom := from_node_append pre rest e hpre
      obtain ⟨hargs, hcmd, hret⟩ := hq e (List.mem_cons_self _ _) x w.env
      obtain ⟨hnot, hrest⟩ := List.nodup_cons.mp hnd
      have hne2 : ∀ t ∈ rest, ∀ p ∈ pre ++ [e], p.node ≠ t.node := by
        intro t ht p hp
        rcases List.mem_append.mp hp with h | h
        · exact hne t (List.mem_cons_of_mem _ ht) p h
        · rw [List.mem_singleton] at h
          subst h
          intro e3
          apply hnot
          simp only [List.mem_map]
          exact ⟨t, ht, by rw [e3]⟩
      have hih := ih (pre ++ [e]) fuel
        ⟨w.observable, w.live, (e.function x w.env).env, w.calls ++ [(e.node, x)]⟩
        (by simp [ho]) hne2 hrest
        (fun t ht => hq t (List.mem_cons_of_mem _ ht)) (by simpa using hfuel)
      simp only [List.head?_cons, Option.map_some', World.walk, ho, hfrom, hcmd,
        World.perform_all, hret, if_true, hargs]
      simp only [ho] at hih
      rw [hih]
      simp

theorem lift_quiet (f : observable.Function σ A) : (lift f).quiet := by
  intro a env
  exact ⟨rfl, rfl, rfl⟩

/-- On callbacks of the kind described by `observable.Function`, the `notify` of
this section does what `observable.Observable.notify` does. -/
theorem notify_lift (o : observable.Observable σ A)
    (hn : (observable.handles o.m_observers).Nodup)
    (live : List (Observer × Function σ A)) (x : A) (env : σ) (calls : List (Handle × A))
    (fuel : Nat) (hfuel : o.num_observers ≤ fuel) :
    World.notify fuel ⟨some ⟨lift_list o.m_observers⟩, live, env, calls⟩ x
      = some (⟨some ⟨lift_list o.m_observers⟩, live,
          (o.notify x env).1, calls ++ (o.notify x env).2⟩, true) := by
  have h := walk_quiet x (lift_list o.m_observers)
    [] fuel ⟨some ⟨lift_list o.m_observers⟩, live, env, calls⟩
    (by simp) (fun _ _ p hp => absurd hp (List.not_mem_nil p))
    (by simpa [lift_list, observable.handles, Function.comp_def] using hn)
    (by
      intro e he
      simp only [lift_list, List.mem_map] at he
      obtain ⟨e0, _, rfl⟩ := he
      exact lift_quiet _)
    (by simpa [lift_list, observable.Observable.num_observers] using hfuel)
  simp only [World.notify]
  rw [h]
  simp [lift_list, observable.Observable.notify, observable.notify_loop_eq, List.foldl_map,
    Function.comp_def, lift, Outcome.env]

end lemmas

end Reentrant

section claims

variable {σ A : Type}

/-- C15: a newly constructed `Observable` has `num_observers() == 0`; in every
reachable state in which the observable exists `num_observers()` is the number
of live observers, each `subscribe()` increases it by exactly 1, and destroying
a live `Observer` decreases it by exactly 1. -/
theorem num_observers_counts_live_observers (w : World σ A) (hw : w.Reachable)
    (o : Observable σ A) (ho : w.observable = some o) :
    (Observable.new : Observable σ A).num_observers = 0 ∧
    o.num_observers = w.live.length ∧
    (∀ f, (o.subscribe f).2.num_observers = o.num_observers + 1 ∧
      w.step (Op.subscribe f)
        = some ⟨some (o.subscribe f).2, w.live ++ [(o.subscribe f).1], w.env, w.calls⟩) ∧
    (∀ ob ∈ w.live, ∃ o1, ob.destroy (some o) = some (some o1) ∧
      o1.num_observers + 1 = o.num_observers ∧
      w.step (Op.destroy_observer ob) = some ⟨some o1, w.live.erase ob, w.env, w.calls⟩) := by
  obtain ⟨h1, _⟩ := observable_reachable_inv w hw o ho
  refine ⟨rfl, ?_, ?_, ?_⟩
  · rw [← h1]
    simp [Observable.num_observers, handles]
  · intro f
    exact ⟨by simp [Observable.subscribe, Observable.num_observers], by simp [World.step, ho]⟩
  · intro ob hob
    have hd := observer_destroy_of_mem o ob (h1 ▸ hob)
    refine ⟨_, hd, ?_, ?_⟩
    · exact observer_length_eraseNode _ _ (hasNode_of_mem _ _ (h1 ▸ hob))
    · simp [World.step, hob, ho, hd]

/-- Witness for C15 on `TestUnsubscribeDecreasesObserverCount`: 2 observers, then
1, then 0. -/
theorem num_observers_counts_live_observers_witness :
    ((World.run (World.init ()) test_unsubscribe_ops).map
        (fun w => (w.observable.map Observable.num_observers, w.live))
      = some (some 2, [sub1, sub2])) ∧
    ((World.run (World.init ()) (test_unsubscribe_ops ++ [.destroy_observer sub2])).bind
        (fun w => w.observable.map Observable.num_observers) = some 1) ∧
    ((World.run (World.init ())
        (test_unsubscribe_ops ++ [.destroy_observer sub2, .destroy_observer sub1])).bind
        (fun w => w.observable.map Observable.num_observers) = some 0) ∧
    Observable.num_observers
        (⟨[⟨0, ignore_arg⟩, ⟨1, ignore_arg⟩]⟩ : Observable Unit Int)
      = [sub1, sub2].length :=
  ⟨by decide, by decide, by decide,
    (num_observers_counts_live_observers
      (⟨some ⟨[⟨0, ignore_arg⟩, ⟨1, ignore_arg⟩]⟩, [sub1, sub2], (), []⟩ : World Unit Int)
      ⟨(), test_unsubscribe_ops, rfl⟩ ⟨[⟨0, ignore_arg⟩, ⟨1, ignore_arg⟩]⟩ rfl).2.1⟩

/-- C17: an `Observer` may outlive its `Observable`: destroying the observable
invokes no callback (environment and invocations are unchanged), and
destroying a live `Observer` afterwards succeeds and does nothing but end the
observer: the list is gone, no erase is attempted and no callback runs. -/
theorem observer_may_outlive_observable (w : World σ A) (o : Observable σ A)
    (ho : w.observable = some o) (ob : Observer) (hob : ob ∈ w.live) :
    w.step Op.destroy_observable = some ⟨none, w.live, w.env, w.calls⟩ ∧
    ob.destroy (none : Option (Observable σ A)) = some none ∧
    World.step (⟨none, w.live, w.env, w.calls⟩ : World σ A) (Op.destroy_observer ob)
      = some ⟨none, w.live.erase ob, w.env, w.calls⟩ ∧
    w.run [Op.destroy_observable, Op.destroy_observer ob]
      = some ⟨none, w.live.erase ob, w.env, w.calls⟩ := by
  have h1 : w.step Op.destroy_observable = some ⟨none, w.live, w.env, w.calls⟩ := by
    simp [World.step, ho]
  have h2 : World.step (⟨none, w.live, w.env, w.calls⟩ : World σ A) (Op.destroy_observer ob)
      = some ⟨none, w.live.erase ob, w.env, w.calls⟩ := by
    simp [World.step, hob, Observer.destroy]
  exact ⟨h1, rfl, h2, by simp [World.run, h1, h2]⟩

/-- Witness for C17 on `TestObserverOutlivesObservable`: after `delete obs` and
after the destruction of `sub` the callback has been called once, with total
10. -/
theorem observer_may_outlive_observable_witness :
    ((World.run (World.init (⟨0, 0⟩, ⟨0, 0⟩)) test_outlives_ops).map
        (fun w => (w.env.1, w.calls, w.live, w.observable.isSome))
      = some (⟨10, 1⟩, [(0, 10)], [], false)) ∧
    World.step (⟨some ⟨[⟨0, call_c1⟩]⟩, [sub1], (⟨10, 1⟩, ⟨0, 0⟩), [(0, 10)]⟩ :
        World (Callback × Callback) Int) Op.destroy_observable
      = some ⟨none, [sub1], (⟨10, 1⟩, ⟨0, 0⟩), [(0, 10)]⟩ :=
  ⟨by decide,
    (observer_may_outlive_observable
      (⟨some ⟨[⟨0, call_c1⟩]⟩, [sub1], (⟨10, 1⟩, ⟨0, 0⟩), [(0, 10)]⟩ :
        World (Callback × Callback) Int)
      ⟨[⟨0, call_c1⟩]⟩ rfl sub1 (by decide)).1⟩

end claims

end observable
